import Mathlib

/-!
# Verification of the `kirke` state-machine engine (`src/kirke/state.py`)

This file gives a shallow embedding of the state-machine transition
protocol of `kirke.state.State` and proves the spec's claims about it.

Modelling conventions:

* A `State` object of the Python code is a `Machine`; machines live in a
  `World` indexed by `MachineId`.  Output handlers (`set_output` objects)
  are indexed by `OutputId` and described by an `OutputBehavior` oracle:
  `require_async` is the handler's `require_async()` result,
  `acquireFails lbl` says whether `acquire_lock(lbl)` raises, and
  `changeFails` says whether `change()` raises.  `release_lock` never
  raises in the model (no claim concerns a raising `release_lock`).
* Python's `self.output_callbacks` is a `set`; its iteration order is
  unspecified but fixed during a call.  We model it as the list giving
  that iteration order.
* `self.post_change_callbacks` is a `defaultdict(list)` keyed by label;
  we model it as an association list in key-insertion order, with lookup
  defaulting to `[]`.  (The `defaultdict` auto-inserts an empty entry on
  lookup of a missing key; an empty entry contributes no wiring edge and
  no recursion, so the pure lookup is observationally equivalent.)
* Exceptions are values of `Err`; a raising call propagates its error.
  `change_state` / `change_state_async` can recurse unboundedly through
  wiring, so the interpreters take a fuel parameter that bounds the
  recursion depth; exhaustion yields the distinguished error
  `Err.outOfFuel`.  Actual termination of a call is `∃ fuel` making the
  interpreter finish without `Err.outOfFuel`.
* Every externally observable call on an output handler is recorded in a
  trace of `Event`s, tagged with the machine issuing the call.
-/

abbrev MachineId := Nat
abbrev OutputId := Nat
abbrev Label := String

/-- Oracle describing an output handler bound via `set_output`. -/
structure OutputBehavior where
  require_async : Bool
  acquireFails : Label → Bool
  changeFails : Bool

/-- One `kirke.state.State` object: its fixed label list, current label
(`None` = undefined), bound outputs (in set-iteration order) and wiring
table (`post_change_callbacks`, key-insertion ordered). -/
structure Machine where
  states : List Label
  current_state : Option Label
  output_callbacks : List OutputId
  post_change_callbacks : List (Label × List (MachineId × Label))

/-- The whole tree of machines plus the behavior of every output. -/
structure World where
  machines : MachineId → Machine
  outputs : OutputId → OutputBehavior

/-- Observable calls on output handlers, tagged with the issuing machine. -/
inductive Event where
  | acquire (m : MachineId) (o : OutputId) (lbl : Label)
  | acquireFailed (m : MachineId) (o : OutputId) (lbl : Label)
  | change (m : MachineId) (o : OutputId)
  | changeFailed (m : MachineId) (o : OutputId)
  | release (m : MachineId) (o : OutputId)
deriving DecidableEq, Repr

/-- Errors (Python exceptions) the engine can surface.  `outOfFuel` is the
interpreter's marker for exceeding the recursion-depth bound. -/
inductive Err where
  | unknownLabel (m : MachineId) (lbl : Label)
  | asyncRequired (m : MachineId)
  | lockRefused (m : MachineId) (o : OutputId)
  | commitFailed (m : MachineId) (o : OutputId)
  | assertionFailed (m : MachineId)
  | outOfFuel
deriving DecidableEq, Repr

/-- Result of a (possibly failing) transition call: the world after all
performed side effects, the trace of output calls made, and the error
raised (if any). -/
structure Outcome where
  world : World
  trace : List Event
  error : Option Err

/-- Wiring lookup: `post_change_callbacks[lbl]` with `defaultdict` default. -/
def lookupWiring (m : Machine) (lbl : Label) : List (MachineId × Label) :=
  match m.post_change_callbacks.find? (fun kv => kv.1 == lbl) with
  | some kv => kv.2
  | none => []

/-- All wiring destinations of an association list, across every key, in
iteration order (used by `check_for_async`, which iterates every key). -/
def destsOfEntries : List (Label × List (MachineId × Label)) → List MachineId
  | [] => []
  | (_, es) :: rest => es.map Prod.fst ++ destsOfEntries rest

/-- All wiring destinations of a machine, across every key. -/
def destsOf (m : Machine) : List MachineId :=
  destsOfEntries m.post_change_callbacks

/-- Whether any bound output of machine `mid` has `require_async()` true
(the negation of `check_for_async`'s `assert all(... is False ...)`). -/
def machineHasAsync (w : World) (mid : MachineId) : Bool :=
  (w.machines mid).output_callbacks.any fun o => (w.outputs o).require_async

/-- `State.check_change_state`: asserts the label is known (else the
`assert` raises), and returns whether the transition is a real change
(`False` = no-op shortcut). -/
def check_change_state (w : World) (mid : MachineId) (lbl : Label) : Except Err Bool :=
  let mach := w.machines mid
  if lbl ∈ mach.states then
    if mach.current_state = some lbl then .ok false else .ok true
  else .error (.unknownLabel mid lbl)

/-- The inner loop of `State.check_for_async`: iterate the wiring
destinations, skipping machines already in `checked`, recursing via
`step` into new ones and appending them to `checked`. -/
def cfaGo (step : MachineId → Except Err Unit) :
    List MachineId → List MachineId → Except Err Unit
  | _, [] => .ok ()
  | checked, d :: rest =>
    if d ∈ checked then cfaGo step checked rest
    else
      match step d with
      | .error e => .error e
      | .ok () => cfaGo step (checked ++ [d]) rest

/-- `State.check_for_async`: assert that no bound output of this machine
requires async, then recurse into every wiring destination (over every
key of `post_change_callbacks`, deduplicated per level by `checked`). -/
def check_for_async : Nat → World → MachineId → Except Err Unit
  | 0, _, _ => .error .outOfFuel
  | n + 1, w, mid =>
    if machineHasAsync w mid then .error (.asyncRequired mid)
    else cfaGo (check_for_async n w) [] (destsOf (w.machines mid))

/-- Result of the lock phase: successfully locked outputs (in acquisition
order), events emitted, and the output whose `acquire_lock` raised, if any. -/
structure LockResult where
  locked : List OutputId
  evs : List Event
  failed : Option OutputId
deriving Repr

/-- The lock phase of `change_state`: call `acquire_lock(lbl)` on each
output in order, stopping at the first failure. -/
def lockPhase (w : World) (mid : MachineId) (lbl : Label) :
    List OutputId → LockResult
  | [] => ⟨[], [], none⟩
  | o :: rest =>
    if (w.outputs o).acquireFails lbl then ⟨[], [.acquireFailed mid o lbl], some o⟩
    else
      let r := lockPhase w mid lbl rest
      ⟨o :: r.locked, .acquire mid o lbl :: r.evs, r.failed⟩

/-- Lock phase of `change_state_async`: same iteration, but the locked
outputs are partitioned into the synchronous list `locked` and the
asynchronous list `locked_async`. -/
structure LockResultAsync where
  lockedSync : List OutputId
  lockedAsync : List OutputId
  evs : List Event
  failed : Option OutputId
deriving Repr

def lockPhaseAsync (w : World) (mid : MachineId) (lbl : Label) :
    List OutputId → LockResultAsync
  | [] => ⟨[], [], [], none⟩
  | o :: rest =>
    if (w.outputs o).acquireFails lbl then ⟨[], [], [.acquireFailed mid o lbl], some o⟩
    else
      let r := lockPhaseAsync w mid lbl rest
      if (w.outputs o).require_async then
        ⟨r.lockedSync, o :: r.lockedAsync, .acquire mid o lbl :: r.evs, r.failed⟩
      else
        ⟨o :: r.lockedSync, r.lockedAsync, .acquire mid o lbl :: r.evs, r.failed⟩

/-- Result of the commit phase: events emitted and the output whose
`change()` raised, if any. -/
structure CommitResult where
  evs : List Event
  failed : Option OutputId
deriving Repr

/-- The commit phase: call `change()` on each output in order; a raise
stops the loop (the raising call is recorded as `changeFailed`). -/
def commitPhase (w : World) (mid : MachineId) : List OutputId → CommitResult
  | [] => ⟨[], none⟩
  | o :: rest =>
    if (w.outputs o).changeFails then ⟨[.changeFailed mid o], some o⟩
    else
      let r := commitPhase w mid rest
      ⟨.change mid o :: r.evs, r.failed⟩

/-- Events of a `release_lock()` loop over the given outputs, in the
order the Python `for` loop visits them. -/
def releaseEvents (mid : MachineId) (os : List OutputId) : List Event :=
  os.map fun o => .release mid o

/-- Result of the propagation loop. -/
structure PropResult where
  world : World
  evs : List Event
  error : Option Err

/-- The propagation loop over wiring edges: invoke `step` (a recursive
transition) on each `(dest, dest_state)` edge in order; a raise aborts
the loop and propagates, keeping the side effects made so far. -/
def runEdges (step : World → MachineId → Label → Outcome) :
    World → List (MachineId × Label) → PropResult
  | w, [] => ⟨w, [], none⟩
  | w, (d, dl) :: rest =>
    match step w d dl with
    | ⟨w1, tr1, some e⟩ => ⟨w1, tr1, some e⟩
    | ⟨w1, tr1, none⟩ =>
      match runEdges step w1 rest with
      | ⟨w2, tr2, err⟩ => ⟨w2, tr1 ++ tr2, err⟩

/-- `self.current_state = new_state`. -/
def setCurrent (w : World) (mid : MachineId) (lbl : Label) : World :=
  { machines := fun m =>
      if m = mid then { w.machines mid with current_state := some lbl }
      else w.machines m,
    outputs := w.outputs }

/-- `State.change_state` (synchronous entry point), as a fuel-indexed
interpreter.  Fuel bounds the recursion depth of the propagation phase
(and is handed to `check_for_async` for its own recursion). -/
def change_state : Nat → World → MachineId → Label → Outcome
  | 0, w, _, _ => ⟨w, [], some .outOfFuel⟩
  | n + 1, w, mid, lbl =>
    match check_change_state w mid lbl with
    | .error e => ⟨w, [], some e⟩
    | .ok false => ⟨w, [], none⟩
    | .ok true =>
      match check_for_async (n + 1) w mid with
      | .error e => ⟨w, [], some e⟩
      | .ok () =>
        match lockPhase w mid lbl (w.machines mid).output_callbacks with
        | ⟨locked, levs, some o⟩ =>
          ⟨w, levs ++ releaseEvents mid locked, some (.lockRefused mid o)⟩
        | ⟨_, levs, none⟩ =>
          match commitPhase w mid (w.machines mid).output_callbacks with
          | ⟨cevs, some o⟩ => ⟨w, levs ++ cevs, some (.commitFailed mid o)⟩
          | ⟨cevs, none⟩ =>
            match runEdges (change_state n) w (lookupWiring (w.machines mid) lbl) with
            | ⟨w1, devs, some e⟩ => ⟨w1, levs ++ cevs ++ devs, some e⟩
            | ⟨w1, devs, none⟩ =>
              ⟨setCurrent w1 mid lbl,
               levs ++ cevs ++ devs ++ releaseEvents mid (w.machines mid).output_callbacks,
               none⟩

/-- `State.change_state_async` (cooperative-async entry point), modelled
sequentially (a single-task executor runs the awaits in program order).
No `check_for_async` pre-check; outputs are partitioned into sync/async
lists, and the commit/release loops visit the sync list first. -/
def change_state_async : Nat → World → MachineId → Label → Outcome
  | 0, w, _, _ => ⟨w, [], some .outOfFuel⟩
  | n + 1, w, mid, lbl =>
    match check_change_state w mid lbl with
    | .error e => ⟨w, [], some e⟩
    | .ok false => ⟨w, [], none⟩
    | .ok true =>
      match lockPhaseAsync w mid lbl (w.machines mid).output_callbacks with
      | ⟨ls, la, levs, some o⟩ =>
        ⟨w, levs ++ releaseEvents mid ls ++ releaseEvents mid la,
         some (.lockRefused mid o)⟩
      | ⟨ls, la, levs, none⟩ =>
        match commitPhase w mid (ls ++ la) with
        | ⟨cevs, some o⟩ => ⟨w, levs ++ cevs, some (.commitFailed mid o)⟩
        | ⟨cevs, none⟩ =>
          match runEdges (change_state_async n) w (lookupWiring (w.machines mid) lbl) with
          | ⟨w1, devs, some e⟩ => ⟨w1, levs ++ cevs ++ devs, some e⟩
          | ⟨w1, devs, none⟩ =>
            ⟨setCurrent w1 mid lbl,
             levs ++ cevs ++ devs ++ releaseEvents mid (ls ++ la),
             none⟩

/-- A call to the synchronous transition protocol terminates: some
finite recursion-depth budget lets the interpreter finish without
exhausting fuel. -/
def TerminatesChangeState (w : World) (mid : MachineId) (lbl : Label) : Prop :=
  ∃ fuel, (change_state fuel w mid lbl).error ≠ some .outOfFuel

/-- Same for the async transition protocol. -/
def TerminatesChangeStateAsync (w : World) (mid : MachineId) (lbl : Label) : Prop :=
  ∃ fuel, (change_state_async fuel w mid lbl).error ≠ some .outOfFuel


/-- Append one wiring edge under `key` in a `defaultdict(list)`-backed
association list: extend the existing entry, else create one at the end
(first-touch key order). -/
def assocAppend : List (Label × List (MachineId × Label)) → Label → MachineId × Label →
    List (Label × List (MachineId × Label))
  | [], key, e => [(key, [e])]
  | (k, es) :: rest, key, e =>
    if k == key then (k, es ++ [e]) :: rest else (k, es) :: assocAppend rest key e

/-- `dest.post_change_callbacks[dest_state].append((self, state))`:
append the edge `(tgt, tgtLbl)` under key `key` on machine `onM`. -/
def addEdge (w : World) (onM : MachineId) (key : Label)
    (tgt : MachineId) (tgtLbl : Label) : World :=
  { machines := fun m =>
      if m = onM then
        { w.machines onM with
            post_change_callbacks :=
              assocAppend (w.machines onM).post_change_callbacks key (tgt, tgtLbl) }
      else w.machines m,
    outputs := w.outputs }

/-- `State.set_input`: for each `(state, sources)` item (the code
normalizes a single handle to a one-element list), append `(self, state)`
to `dest.post_change_callbacks[dest_state]` for every `(dest, dest_state)`
handle in `sources`.  The `all(self.check_state_tuple(_) ...)` expression
in the source is evaluated but its result is discarded, so `set_input`
performs no validation and never raises on well-typed handles. -/
def set_input (w : World) (mid : MachineId)
    (state_map : List (Label × List (MachineId × Label))) : World :=
  state_map.foldl (fun wacc kv =>
    kv.2.foldl (fun w2 d => addEdge w2 d.1 d.2 mid kv.1) wacc) w

/-- The value assigned to a label-named attribute of a `State` object:
a single `(machine, label)` handle, a list of handles, or any other
value (characterized only by its truthiness). -/
inductive SetValue where
  | handle (src : MachineId) (srcLbl : Label)
  | handleList (hs : List (MachineId × Label))
  | other (truthy : Bool)

/-- Python's `str.lower()` for ASCII labels, written structurally so the
kernel can evaluate it. -/
def lowerString (s : String) : String :=
  ⟨s.data.map fun c =>
    if 65 ≤ c.toNat ∧ c.toNat ≤ 90 then Char.ofNat (c.toNat + 32) else c⟩

/-- `State.__setattr__` restricted to keys whose lowercase form is a
known label.  A single handle installs wiring via `set_input({key:
value})` (the key is passed verbatim, not lowercased).  A list of
handles takes the branch `map(lambda _: self.set_input({_[0]: _[1]}),
value)`: in Python 3 `map` is lazy and its result is never consumed, so
this branch installs nothing and has no effect.  Any other value first
triggers `change_state(key.lower())` and only then asserts the value is
truthy.  Keys whose lowercase form is not a label fall through to plain
attribute assignment, outside this model (no state effect). -/
def setattr_state (fuel : Nat) (w : World) (mid : MachineId) (key : Label)
    (v : SetValue) : Outcome :=
  if lowerString key ∈ (w.machines mid).states then
    match v with
    | .handle src srcLbl => ⟨set_input w mid [(key, [(src, srcLbl)])], [], none⟩
    | .handleList _ => ⟨w, [], none⟩
    | .other truthy =>
      let r := change_state fuel w mid (lowerString key)
      match r.error with
      | some _ => r
      | none => if truthy then r else ⟨r.world, r.trace, some (.assertionFailed mid)⟩
  else ⟨w, [], none⟩

/-- Static (never-mutated) data agree between two worlds: transitions
only ever write `current_state`. -/
def StaticEq (w w' : World) : Prop :=
  (∀ m, (w.machines m).states = (w'.machines m).states ∧
        (w.machines m).output_callbacks = (w'.machines m).output_callbacks ∧
        (w.machines m).post_change_callbacks = (w'.machines m).post_change_callbacks) ∧
  w.outputs = w'.outputs

/-- `rank` is a topological ranking of the wiring graph: every wiring
edge leads to a strictly smaller rank (hence the graph is acyclic). -/
def RankOk (w : World) (rank : MachineId → Nat) : Prop :=
  ∀ m d, d ∈ destsOf (w.machines m) → rank d < rank m

/-- Reachability along wiring edges of ANY label — the closure that
`check_for_async` actually walks. -/
inductive ReachesAll (w : World) : MachineId → MachineId → Prop
  | refl (m : MachineId) : ReachesAll w m m
  | step {m d m' : MachineId} : d ∈ destsOf (w.machines m) →
      ReachesAll w d m' → ReachesAll w m m'

/-- Modelled from the spec's words, for comparison with the code's
`check_for_async`: reachability from `(machine, entered label)` following
only wiring edges keyed by each visited machine's entered label. -/
inductive ReachesEntered (w : World) : MachineId → Label → MachineId → Prop
  | refl (m : MachineId) (l : Label) : ReachesEntered w m l m
  | step {m : MachineId} {l : Label} {d : MachineId} {dl : Label} {m' : MachineId} :
      (d, dl) ∈ lookupWiring (w.machines m) l →
      ReachesEntered w d dl m' → ReachesEntered w m l m'


/-- No machine reachable from `m` along any-label wiring edges has an
async output (`check_for_async` succeeds exactly on such machines). -/
def NoAsyncFrom (w : World) (m : MachineId) : Prop :=
  ∀ m', ReachesAll w m m' → machineHasAsync w m' = false

/-- The machine that issued an event. -/
def eventMachine : Event → MachineId
  | .acquire m _ _ => m
  | .acquireFailed m _ _ => m
  | .change m _ => m
  | .changeFailed m _ => m
  | .release m _ => m

/-! ## Concrete example worlds (used by witnesses and counterexamples) -/

/-- An output that never vetoes and never fails. -/
def okOutput : OutputBehavior := ⟨false, fun _ => false, false⟩

/-- An async output that never vetoes. -/
def asyncOutput : OutputBehavior := ⟨true, fun _ => false, false⟩

/-- An output that vetoes every `acquire_lock`. -/
def vetoOutput : OutputBehavior := ⟨false, fun _ => true, false⟩

/-- An output whose `change()` raises. -/
def badChangeOutput : OutputBehavior := ⟨false, fun _ => false, true⟩

/-- Basic machine: two labels, undefined current, one output, no wiring. -/
def exW : World := ⟨fun _ => ⟨["offline", "online"], none, [1], []⟩, fun _ => okOutput⟩

/-- Machine already at `"offline"`. -/
def noopW : World := ⟨fun _ => ⟨["offline", "online"], some "offline", [1], []⟩, fun _ => okOutput⟩

/-- Three outputs; output 3 vetoes every acquire. -/
def vetoW : World :=
  ⟨fun _ => ⟨["a", "b"], some "a", [1, 2, 3], []⟩,
   fun o => if o = 3 then vetoOutput else okOutput⟩

/-- One output whose `change()` raises. -/
def commitW : World :=
  ⟨fun _ => ⟨["a", "b"], some "a", [1], []⟩, fun _ => badChangeOutput⟩

/-- Two machines wired in a cycle on label `"b"`. -/
def cycW : World :=
  ⟨fun m => if m = 0 then ⟨["a", "b"], some "a", [], [("b", [(1, "b")])]⟩
            else ⟨["a", "b"], some "a", [], [("b", [(0, "b")])]⟩,
   fun _ => okOutput⟩

/-- Machine 0 has a wiring edge only under label `"b"`, pointing at
machine 1, which carries an async output.  Entering `"a"` reaches no
machine with an async output along entered-label edges. -/
def gateW : World :=
  ⟨fun m => if m = 0 then ⟨["a", "b"], none, [], [("b", [(1, "x")])]⟩
            else ⟨["x"], none, [7], []⟩,
   fun _ => asyncOutput⟩


/-- A destination machine 0 (a `door`) and a source machine 1 (a
`connectivity`), with no wiring installed yet. -/
def wireW : World :=
  ⟨fun m => if m = 0 then ⟨["closed", "open"], none, [], []⟩
            else ⟨["on", "off"], none, [], []⟩,
   fun _ => okOutput⟩

/-- Topological rank witness for `gateW`. -/
def gateRank : MachineId → Nat := fun m => if m = 0 then 1 else 0

/-! ## Generic list helpers -/

/-- Split a list at the first element satisfying `p`. -/
theorem exists_first_true {α : Type} {p : α → Bool} :
    ∀ {l : List α}, (∃ x ∈ l, p x = true) →
      ∃ pre x₀ post, l = pre ++ x₀ :: post ∧ (∀ y ∈ pre, p y = false) ∧ p x₀ = true := by
  intro l h
  induction l with
  | nil => simp at h
  | cons x rest ih =>
    by_cases hx : p x = true
    · exact ⟨[], x, rest, rfl, by simp, hx⟩
    · have hx' : p x = false := by simpa using hx
      obtain ⟨y, hy, hpy⟩ := h
      rcases List.mem_cons.mp hy with rfl | hy'
      · exact absurd hpy hx
      · obtain ⟨pre, x₀, post, hsplit, hpre, hx₀⟩ := ih ⟨y, hy', hpy⟩
        exact ⟨x :: pre, x₀, post, by simp [hsplit], by
          intro z hz
          rcases List.mem_cons.mp hz with rfl | hz'
          · exact hx'
          · exact hpre z hz', hx₀⟩

/-- Counting an element is invariant under partitioning by a predicate. -/
theorem count_filter_partition {α : Type} [DecidableEq α] (p : α → Bool) (l : List α) (a : α) :
    (l.filter p).count a + (l.filter (fun x => !p x)).count a = l.count a := by
  induction l with
  | nil => simp
  | cons x rest ih =>
    by_cases hx : p x = true <;>
      simp [List.filter_cons, hx, List.count_cons] <;> omega

/-! ## Phase characterization lemmas -/

theorem lockPhase_ok (w : World) (mid : MachineId) (lbl : Label) (os : List OutputId)
    (h : ∀ o ∈ os, (w.outputs o).acquireFails lbl = false) :
    lockPhase w mid lbl os = ⟨os, os.map (fun o => .acquire mid o lbl), none⟩ := by
  induction os with
  | nil => rfl
  | cons o rest ih =>
    have ho := h o (by simp)
    have hrest : ∀ x ∈ rest, (w.outputs x).acquireFails lbl = false := fun x hx =>
      h x (by simp [hx])
    simp [lockPhase, ho, ih hrest]

theorem lockPhase_fail (w : World) (mid : MachineId) (lbl : Label)
    (pre post : List OutputId) (o₀ : OutputId)
    (hpre : ∀ x ∈ pre, (w.outputs x).acquireFails lbl = false)
    (ho : (w.outputs o₀).acquireFails lbl = true) :
    lockPhase w mid lbl (pre ++ o₀ :: post) =
      ⟨pre, pre.map (fun o => .acquire mid o lbl) ++ [.acquireFailed mid o₀ lbl], some o₀⟩ := by
  induction pre with
  | nil => simp [lockPhase, ho]
  | cons x rest ih =>
    have hx := hpre x (by simp)
    have hrest : ∀ y ∈ rest, (w.outputs y).acquireFails lbl = false := fun y hy =>
      hpre y (by simp [hy])
    simp [lockPhase, hx, ih hrest]

theorem lockPhaseAsync_ok (w : World) (mid : MachineId) (lbl : Label) (os : List OutputId)
    (h : ∀ o ∈ os, (w.outputs o).acquireFails lbl = false) :
    lockPhaseAsync w mid lbl os =
      ⟨os.filter (fun o => !(w.outputs o).require_async),
       os.filter (fun o => (w.outputs o).require_async),
       os.map (fun o => .acquire mid o lbl), none⟩ := by
  induction os with
  | nil => rfl
  | cons o rest ih =>
    have ho := h o (by simp)
    have hrest : ∀ x ∈ rest, (w.outputs x).acquireFails lbl = false := fun x hx =>
      h x (by simp [hx])
    by_cases ha : (w.outputs o).require_async = true <;>
      simp [lockPhaseAsync, ho, ih hrest, List.filter_cons, ha]

theorem lockPhaseAsync_fail (w : World) (mid : MachineId) (lbl : Label)
    (pre post : List OutputId) (o₀ : OutputId)
    (hpre : ∀ x ∈ pre, (w.outputs x).acquireFails lbl = false)
    (ho : (w.outputs o₀).acquireFails lbl = true) :
    lockPhaseAsync w mid lbl (pre ++ o₀ :: post) =
      ⟨pre.filter (fun o => !(w.outputs o).require_async),
       pre.filter (fun o => (w.outputs o).require_async),
       pre.map (fun o => .acquire mid o lbl) ++ [.acquireFailed mid o₀ lbl], some o₀⟩ := by
  induction pre with
  | nil => simp [lockPhaseAsync, ho]
  | cons x rest ih =>
    have hx := hpre x (by simp)
    have hrest : ∀ y ∈ rest, (w.outputs y).acquireFails lbl = false := fun y hy =>
      hpre y (by simp [hy])
    by_cases ha : (w.outputs x).require_async = true <;>
      simp [lockPhaseAsync, hx, ih hrest, List.filter_cons, ha]

theorem commitPhase_ok (w : World) (mid : MachineId) (os : List OutputId)
    (h : ∀ o ∈ os, (w.outputs o).changeFails = false) :
    commitPhase w mid os = ⟨os.map (fun o => .change mid o), none⟩ := by
  induction os with
  | nil => rfl
  | cons o rest ih =>
    have ho := h o (by simp)
    have hrest : ∀ x ∈ rest, (w.outputs x).changeFails = false := fun x hx =>
      h x (by simp [hx])
    simp [commitPhase, ho, ih hrest]

theorem commitPhase_fail (w : World) (mid : MachineId)
    (pre post : List OutputId) (o₀ : OutputId)
    (hpre : ∀ x ∈ pre, (w.outputs x).changeFails = false)
    (ho : (w.outputs o₀).changeFails = true) :
    commitPhase w mid (pre ++ o₀ :: post) =
      ⟨pre.map (fun o => .change mid o) ++ [.changeFailed mid o₀], some o₀⟩ := by
  induction pre with
  | nil => simp [commitPhase, ho]
  | cons x rest ih =>
    have hx := hpre x (by simp)
    have hrest : ∀ y ∈ rest, (w.outputs y).changeFails = false := fun y hy =>
      hpre y (by simp [hy])
    simp [commitPhase, hx, ih hrest]

theorem check_change_state_true (w : World) (mid : MachineId) (lbl : Label)
    (h1 : lbl ∈ (w.machines mid).states)
    (h2 : (w.machines mid).current_state ≠ some lbl) :
    check_change_state w mid lbl = .ok true := by
  simp [check_change_state, h1, h2]

theorem check_change_state_false (w : World) (mid : MachineId) (lbl : Label)
    (h1 : lbl ∈ (w.machines mid).states)
    (h2 : (w.machines mid).current_state = some lbl) :
    check_change_state w mid lbl = .ok false := by
  simp [check_change_state, h1, h2]

/-- C5: a transition to the current label short-circuits in
`check_change_state` and is a pure no-op for both entry points. -/
theorem noop_transition (w : World) (mid : MachineId) (lbl : Label) (n : Nat)
    (h1 : lbl ∈ (w.machines mid).states)
    (h2 : (w.machines mid).current_state = some lbl) :
    change_state (n + 1) w mid lbl = ⟨w, [], none⟩ ∧
    change_state_async (n + 1) w mid lbl = ⟨w, [], none⟩ := by
  have hc := check_change_state_false w mid lbl h1 h2
  constructor <;> simp [change_state, change_state_async, hc]

theorem noop_transition_witness :
    ("offline" ∈ (noopW.machines 0).states ∧
      (noopW.machines 0).current_state = some "offline") ∧
    change_state 1 noopW 0 "offline" = ⟨noopW, [], none⟩ ∧
    change_state_async 1 noopW 0 "offline" = ⟨noopW, [], none⟩ :=
  ⟨⟨by decide, by decide⟩, noop_transition noopW 0 "offline" 0 (by decide) (by decide)⟩

/-- Membership is preserved by partitioning a list with a predicate. -/
theorem mem_filter_or {α : Type} (p : α → Bool) (l : List α) (a : α) (h : a ∈ l) :
    a ∈ l.filter p ∨ a ∈ l.filter (fun x => !p x) := by
  by_cases hp : p a = true
  · exact Or.inl (List.mem_filter.mpr ⟨h, hp⟩)
  · exact Or.inr (List.mem_filter.mpr ⟨h, by simpa using hp⟩)

/-- The full outcome of `change_state` when some output vetoes the lock
phase: the world is untouched, the trace is the successful acquires, the
failing acquire, then one `release_lock` per locked output in
acquisition order, and the veto is re-raised. -/
theorem change_state_veto_eq (n : Nat) (w : World) (mid : MachineId) (lbl : Label)
    (pre post : List OutputId) (o₀ : OutputId)
    (h1 : lbl ∈ (w.machines mid).states)
    (h2 : (w.machines mid).current_state ≠ some lbl)
    (h3 : check_for_async (n + 1) w mid = .ok ())
    (hsplit : (w.machines mid).output_callbacks = pre ++ o₀ :: post)
    (hpre : ∀ x ∈ pre, (w.outputs x).acquireFails lbl = false)
    (ho : (w.outputs o₀).acquireFails lbl = true) :
    change_state (n + 1) w mid lbl =
      ⟨w, pre.map (fun o => .acquire mid o lbl) ++
            [.acquireFailed mid o₀ lbl] ++ pre.map (fun o => .release mid o),
        some (.lockRefused mid o₀)⟩ := by
  simp [change_state, check_change_state_true w mid lbl h1 h2, h3, hsplit,
    lockPhase_fail w mid lbl pre post o₀ hpre ho, releaseEvents]

/-- Async analogue of `change_state_veto_eq`: the rollback releases the
locked synchronous outputs first, then the locked async outputs, each
sublist in acquisition order. -/
theorem change_state_async_veto_eq (n : Nat) (w : World) (mid : MachineId) (lbl : Label)
    (pre post : List OutputId) (o₀ : OutputId)
    (h1 : lbl ∈ (w.machines mid).states)
    (h2 : (w.machines mid).current_state ≠ some lbl)
    (hsplit : (w.machines mid).output_callbacks = pre ++ o₀ :: post)
    (hpre : ∀ x ∈ pre, (w.outputs x).acquireFails lbl = false)
    (ho : (w.outputs o₀).acquireFails lbl = true) :
    change_state_async (n + 1) w mid lbl =
      ⟨w, pre.map (fun o => .acquire mid o lbl) ++ [.acquireFailed mid o₀ lbl] ++
            ((pre.filter (fun o => !(w.outputs o).require_async)).map (fun o => .release mid o) ++
             (pre.filter (fun o => (w.outputs o).require_async)).map (fun o => .release mid o)),
        some (.lockRefused mid o₀)⟩ := by
  simp [change_state_async, check_change_state_true w mid lbl h1 h2, hsplit,
    lockPhaseAsync_fail w mid lbl pre post o₀ hpre ho, releaseEvents]

/-- C1 (atomic veto): if an output vetoes `acquire_lock(new_label)` during
`change_state` or `change_state_async`, the call raises `LockRefused`,
the world (in particular `current_state`) is unchanged, no output
received `change()`, and every previously-locked output received exactly
one `release_lock()` (release count equals acquire count per output). -/
theorem atomic_veto :
    (∀ (n : Nat) (w : World) (mid : MachineId) (lbl : Label),
      lbl ∈ (w.machines mid).states →
      (w.machines mid).current_state ≠ some lbl →
      check_for_async (n + 1) w mid = .ok () →
      (∃ o ∈ (w.machines mid).output_callbacks, (w.outputs o).acquireFails lbl = true) →
      (change_state (n + 1) w mid lbl).world = w ∧
      (∃ o, (change_state (n + 1) w mid lbl).error = some (.lockRefused mid o)) ∧
      (∀ o, Event.change mid o ∉ (change_state (n + 1) w mid lbl).trace ∧
            Event.changeFailed mid o ∉ (change_state (n + 1) w mid lbl).trace) ∧
      (∀ o, ((change_state (n + 1) w mid lbl).trace).count (Event.release mid o) =
            ((change_state (n + 1) w mid lbl).trace).count (Event.acquire mid o lbl))) ∧
    (∀ (n : Nat) (w : World) (mid : MachineId) (lbl : Label),
      lbl ∈ (w.machines mid).states →
      (w.machines mid).current_state ≠ some lbl →
      (∃ o ∈ (w.machines mid).output_callbacks, (w.outputs o).acquireFails lbl = true) →
      (change_state_async (n + 1) w mid lbl).world = w ∧
      (∃ o, (change_state_async (n + 1) w mid lbl).error = some (.lockRefused mid o)) ∧
      (∀ o, Event.change mid o ∉ (change_state_async (n + 1) w mid lbl).trace ∧
            Event.changeFailed mid o ∉ (change_state_async (n + 1) w mid lbl).trace) ∧
      (∀ o, ((change_state_async (n + 1) w mid lbl).trace).count (Event.release mid o) =
            ((change_state_async (n + 1) w mid lbl).trace).count (Event.acquire mid o lbl))) := by
  constructor
  · intro n w mid lbl h1 h2 h3 hex
    obtain ⟨pre, o₀, post, hsplit, hpre, ho⟩ := exists_first_true hex
    rw [change_state_veto_eq n w mid lbl pre post o₀ h1 h2 h3 hsplit hpre ho]
    refine ⟨rfl, ⟨o₀, rfl⟩, ?_, ?_⟩
    · intro o
      constructor <;> simp [List.mem_append, List.mem_map]
    · intro o
      have e1 := List.count_map_of_injective (β := Event) pre
        (fun x => Event.release mid x) (fun a b h => by simpa using h) o
      have e2 := List.count_map_of_injective (β := Event) pre
        (fun x => Event.acquire mid x lbl) (fun a b h => by simpa using h) o
      have z1 : (pre.map (fun x => Event.acquire mid x lbl)).count (Event.release mid o) = 0 :=
        List.count_eq_zero.mpr (by simp)
      have z2 : (pre.map (fun x => Event.release mid x)).count (Event.acquire mid o lbl) = 0 :=
        List.count_eq_zero.mpr (by simp)
      have z3 : ([Event.acquireFailed mid o₀ lbl] : List Event).count (Event.release mid o) = 0 :=
        List.count_eq_zero.mpr (by simp)
      have z4 : ([Event.acquireFailed mid o₀ lbl] : List Event).count (Event.acquire mid o lbl) = 0 :=
        List.count_eq_zero.mpr (by simp)
      simp only [List.count_append, z1, z2, z3, z4, e1, e2]
      omega
  · intro n w mid lbl h1 h2 hex
    obtain ⟨pre, o₀, post, hsplit, hpre, ho⟩ := exists_first_true hex
    rw [change_state_async_veto_eq n w mid lbl pre post o₀ h1 h2 hsplit hpre ho]
    refine ⟨rfl, ⟨o₀, rfl⟩, ?_, ?_⟩
    · intro o
      constructor <;> simp [List.mem_append, List.mem_map, List.mem_filter]
    · intro o
      have hpart := count_filter_partition (fun x => (w.outputs x).require_async) pre o
      have eS := List.count_map_of_injective (β := Event)
        (pre.filter (fun x => !(w.outputs x).require_async))
        (fun x => Event.release mid x) (fun a b h => by simpa using h) o
      have eA := List.count_map_of_injective (β := Event)
        (pre.filter (fun x => (w.outputs x).require_async))
        (fun x => Event.release mid x) (fun a b h => by simpa using h) o
      have e2 := List.count_map_of_injective (β := Event) pre
        (fun x => Event.acquire mid x lbl) (fun a b h => by simpa using h) o
      have z1 : (pre.map (fun x => Event.acquire mid x lbl)).count (Event.release mid o) = 0 :=
        List.count_eq_zero.mpr (by simp)
      have z2 : ((pre.filter (fun x => !(w.outputs x).require_async)).map
          (fun x => Event.release mid x)).count (Event.acquire mid o lbl) = 0 :=
        List.count_eq_zero.mpr (by simp)
      have z3 : ((pre.filter (fun x => (w.outputs x).require_async)).map
          (fun x => Event.release mid x)).count (Event.acquire mid o lbl) = 0 :=
        List.count_eq_zero.mpr (by simp)
      have z4 : ([Event.acquireFailed mid o₀ lbl] : List Event).count (Event.release mid o) = 0 :=
        List.count_eq_zero.mpr (by simp)
      have z5 : ([Event.acquireFailed mid o₀ lbl] : List Event).count (Event.acquire mid o lbl) = 0 :=
        List.count_eq_zero.mpr (by simp)
      simp only [List.count_append, eS, eA, e2, z1, z2, z3, z4, z5]
      omega

theorem atomic_veto_witness :
    ("b" ∈ (vetoW.machines 0).states ∧ (vetoW.machines 0).current_state ≠ some "b" ∧
      check_for_async 1 vetoW 0 = .ok () ∧
      (∃ o ∈ (vetoW.machines 0).output_callbacks, (vetoW.outputs o).acquireFails "b" = true)) ∧
    ((change_state 1 vetoW 0 "b").world = vetoW ∧
     (∃ o, (change_state 1 vetoW 0 "b").error = some (.lockRefused 0 o)) ∧
     (∀ o, Event.change 0 o ∉ (change_state 1 vetoW 0 "b").trace ∧
           Event.changeFailed 0 o ∉ (change_state 1 vetoW 0 "b").trace) ∧
     (∀ o, ((change_state 1 vetoW 0 "b").trace).count (Event.release 0 o) =
           ((change_state 1 vetoW 0 "b").trace).count (Event.acquire 0 o "b"))) ∧
    ((change_state_async 1 vetoW 0 "b").world = vetoW ∧
     (∃ o, (change_state_async 1 vetoW 0 "b").error = some (.lockRefused 0 o)) ∧
     (∀ o, Event.change 0 o ∉ (change_state_async 1 vetoW 0 "b").trace ∧
           Event.changeFailed 0 o ∉ (change_state_async 1 vetoW 0 "b").trace) ∧
     (∀ o, ((change_state_async 1 vetoW 0 "b").trace).count (Event.release 0 o) =
           ((change_state_async 1 vetoW 0 "b").trace).count (Event.acquire 0 o "b"))) :=
  ⟨⟨by decide, by decide, by rfl, by decide⟩,
   atomic_veto.1 0 vetoW 0 "b" (by decide) (by decide) (by rfl) (by decide),
   atomic_veto.2 0 vetoW 0 "b" (by decide) (by decide) (by decide)⟩

/-- C7 counterexample: with outputs iterated in order `[1, 2, 3]` and
output 3 vetoing, the already-locked outputs 1 and 2 are released in
forward (acquisition) order `release 1, release 2` — not in reverse
order `release 2, release 1` as the claim states. -/
theorem rollback_reverse_order_cex :
    (change_state 1 vetoW 0 "b").trace =
      [Event.acquire 0 1 "b", Event.acquire 0 2 "b", Event.acquireFailed 0 3 "b",
       Event.release 0 1, Event.release 0 2] ∧
    [Event.release 0 1, Event.release 0 2] ≠ [Event.release 0 2, Event.release 0 1] := by
  constructor <;> decide

/-- C7 (amended): when an output vetoes `acquire_lock`, both entry points
release the already-locked outputs in *forward* acquisition order (the
rollback `for` loop iterates `locked` in insertion order; the async
variant releases the locked synchronous outputs first, then the locked
async outputs, each sublist in forward order), and the original failure
is re-raised (`LockRefused` carries the vetoing output). -/
theorem rollback_release_order :
    (∀ (n : Nat) (w : World) (mid : MachineId) (lbl : Label)
        (pre post : List OutputId) (o₀ : OutputId),
      lbl ∈ (w.machines mid).states →
      (w.machines mid).current_state ≠ some lbl →
      check_for_async (n + 1) w mid = .ok () →
      (w.machines mid).output_callbacks = pre ++ o₀ :: post →
      (∀ x ∈ pre, (w.outputs x).acquireFails lbl = false) →
      (w.outputs o₀).acquireFails lbl = true →
      change_state (n + 1) w mid lbl =
        ⟨w, pre.map (fun o => .acquire mid o lbl) ++ [.acquireFailed mid o₀ lbl] ++
              pre.map (fun o => .release mid o),
          some (.lockRefused mid o₀)⟩) ∧
    (∀ (n : Nat) (w : World) (mid : MachineId) (lbl : Label)
        (pre post : List OutputId) (o₀ : OutputId),
      lbl ∈ (w.machines mid).states →
      (w.machines mid).current_state ≠ some lbl →
      (w.machines mid).output_callbacks = pre ++ o₀ :: post →
      (∀ x ∈ pre, (w.outputs x).acquireFails lbl = false) →
      (w.outputs o₀).acquireFails lbl = true →
      change_state_async (n + 1) w mid lbl =
        ⟨w, pre.map (fun o => .acquire mid o lbl) ++ [.acquireFailed mid o₀ lbl] ++
              ((pre.filter (fun o => !(w.outputs o).require_async)).map
                  (fun o => .release mid o) ++
               (pre.filter (fun o => (w.outputs o).require_async)).map
                  (fun o => .release mid o)),
          some (.lockRefused mid o₀)⟩) :=
  ⟨fun n w mid lbl pre post o₀ h1 h2 h3 hsplit hpre ho =>
      change_state_veto_eq n w mid lbl pre post o₀ h1 h2 h3 hsplit hpre ho,
   fun n w mid lbl pre post o₀ h1 h2 hsplit hpre ho =>
      change_state_async_veto_eq n w mid lbl pre post o₀ h1 h2 hsplit hpre ho⟩

theorem rollback_release_order_witness :
    ((vetoW.machines 0).output_callbacks = [1, 2] ++ 3 :: [] ∧
      (∀ x ∈ [1, 2], (vetoW.outputs x).acquireFails "b" = false) ∧
      (vetoW.outputs 3).acquireFails "b" = true) ∧
    change_state 1 vetoW 0 "b" =
      ⟨vetoW, [1, 2].map (fun o => .acquire 0 o "b") ++ [.acquireFailed 0 3 "b"] ++
          [1, 2].map (fun o => .release 0 o), some (.lockRefused 0 3)⟩ ∧
    change_state_async 1 vetoW 0 "b" =
      ⟨vetoW, [1, 2].map (fun o => .acquire 0 o "b") ++ [.acquireFailed 0 3 "b"] ++
          (([1, 2].filter (fun o => !(vetoW.outputs o).require_async)).map
              (fun o => .release 0 o) ++
           ([1, 2].filter (fun o => (vetoW.outputs o).require_async)).map
              (fun o => .release 0 o)), some (.lockRefused 0 3)⟩ :=
  ⟨⟨by decide, by decide, by decide⟩,
   rollback_release_order.1 0 vetoW 0 "b" [1, 2] [] 3 (by decide) (by decide) (by rfl)
     (by decide) (by decide) (by decide),
   rollback_release_order.2 0 vetoW 0 "b" [1, 2] [] 3 (by decide) (by decide)
     (by decide) (by decide) (by decide)⟩

/-- The full outcome of `change_state` when the lock phase succeeds and
some output's `change()` raises: the commit loop stops at the first
raiser, the exception propagates, the world is untouched, and nothing
is released or reverted. -/
theorem change_state_commitfail_eq (n : Nat) (w : World) (mid : MachineId) (lbl : Label)
    (pre post : List OutputId) (o₀ : OutputId)
    (h1 : lbl ∈ (w.machines mid).states)
    (h2 : (w.machines mid).current_state ≠ some lbl)
    (h3 : check_for_async (n + 1) w mid = .ok ())
    (hacq : ∀ o ∈ (w.machines mid).output_callbacks, (w.outputs o).acquireFails lbl = false)
    (hsplit : (w.machines mid).output_callbacks = pre ++ o₀ :: post)
    (hpre : ∀ x ∈ pre, (w.outputs x).changeFails = false)
    (ho : (w.outputs o₀).changeFails = true) :
    change_state (n + 1) w mid lbl =
      ⟨w, ((w.machines mid).output_callbacks).map (fun o => .acquire mid o lbl) ++
            (pre.map (fun o => .change mid o) ++ [.changeFailed mid o₀]),
        some (.commitFailed mid o₀)⟩ := by
  have hl := lockPhase_ok w mid lbl (w.machines mid).output_callbacks hacq
  have hc := commitPhase_fail w mid pre post o₀ hpre ho
  rw [← hsplit] at hc
  simp [change_state, check_change_state_true w mid lbl h1 h2, h3, hl, hc]

/-- Async analogue of `change_state_commitfail_eq`; the commit loop runs
over the locked synchronous outputs first, then the locked async ones. -/
theorem change_state_async_commitfail_eq (n : Nat) (w : World) (mid : MachineId) (lbl : Label)
    (pre post : List OutputId) (o₀ : OutputId)
    (h1 : lbl ∈ (w.machines mid).states)
    (h2 : (w.machines mid).current_state ≠ some lbl)
    (hacq : ∀ o ∈ (w.machines mid).output_callbacks, (w.outputs o).acquireFails lbl = false)
    (hsplit : ((w.machines mid).output_callbacks).filter (fun o => !(w.outputs o).require_async) ++
        ((w.machines mid).output_callbacks).filter (fun o => (w.outputs o).require_async) =
        pre ++ o₀ :: post)
    (hpre : ∀ x ∈ pre, (w.outputs x).changeFails = false)
    (ho : (w.outputs o₀).changeFails = true) :
    change_state_async (n + 1) w mid lbl =
      ⟨w, ((w.machines mid).output_callbacks).map (fun o => .acquire mid o lbl) ++
            (pre.map (fun o => .change mid o) ++ [.changeFailed mid o₀]),
        some (.commitFailed mid o₀)⟩ := by
  have hl := lockPhaseAsync_ok w mid lbl (w.machines mid).output_callbacks hacq
  have hc := commitPhase_fail w mid pre post o₀ hpre ho
  rw [← hsplit] at hc
  simp [change_state_async, check_change_state_true w mid lbl h1 h2, hl, hc]

/-- C6 (commit-phase failure): if every `acquire_lock` succeeded and some
output's `change()` raises, the failure surfaces to the caller (as the
commit-phase error, the spec's `CommitViolation`), the world — in
particular the machine's `current_state` — is unchanged, and no
compensating call is made: outputs already told to change are not
reverted and nothing is released. -/
theorem commit_failure_semantics :
    (∀ (n : Nat) (w : World) (mid : MachineId) (lbl : Label),
      lbl ∈ (w.machines mid).states →
      (w.machines mid).current_state ≠ some lbl →
      check_for_async (n + 1) w mid = .ok () →
      (∀ o ∈ (w.machines mid).output_callbacks, (w.outputs o).acquireFails lbl = false) →
      (∃ o ∈ (w.machines mid).output_callbacks, (w.outputs o).changeFails = true) →
      (change_state (n + 1) w mid lbl).world = w ∧
      (∃ o, (change_state (n + 1) w mid lbl).error = some (.commitFailed mid o) ∧
        (w.outputs o).changeFails = true) ∧
      (∀ o, Event.release mid o ∉ (change_state (n + 1) w mid lbl).trace)) ∧
    (∀ (n : Nat) (w : World) (mid : MachineId) (lbl : Label),
      lbl ∈ (w.machines mid).states →
      (w.machines mid).current_state ≠ some lbl →
      (∀ o ∈ (w.machines mid).output_callbacks, (w.outputs o).acquireFails lbl = false) →
      (∃ o ∈ (w.machines mid).output_callbacks, (w.outputs o).changeFails = true) →
      (change_state_async (n + 1) w mid lbl).world = w ∧
      (∃ o, (change_state_async (n + 1) w mid lbl).error = some (.commitFailed mid o) ∧
        (w.outputs o).changeFails = true) ∧
      (∀ o, Event.release mid o ∉ (change_state_async (n + 1) w mid lbl).trace)) := by
  constructor
  · intro n w mid lbl h1 h2 h3 hacq hex
    obtain ⟨pre, o₀, post, hsplit, hpre, ho⟩ := exists_first_true hex
    rw [change_state_commitfail_eq n w mid lbl pre post o₀ h1 h2 h3 hacq hsplit hpre ho]
    exact ⟨rfl, ⟨o₀, rfl, ho⟩, fun o => by simp [List.mem_append, List.mem_map]⟩
  · intro n w mid lbl h1 h2 hacq hex
    obtain ⟨o, hoMem, hoFail⟩ := hex
    have hmem : o ∈ ((w.machines mid).output_callbacks).filter
          (fun x => !(w.outputs x).require_async) ++
        ((w.machines mid).output_callbacks).filter
          (fun x => (w.outputs x).require_async) := by
      rcases mem_filter_or (fun x => !(w.outputs x).require_async)
          (w.machines mid).output_callbacks o hoMem with h | h
      · exact List.mem_append.mpr (Or.inl h)
      · refine List.mem_append.mpr (Or.inr ?_)
        refine List.mem_filter.mpr ⟨List.mem_filter.mp h |>.1, ?_⟩
        have := (List.mem_filter.mp h).2
        simpa using this
    obtain ⟨pre, o₀, post, hsplit, hpre, ho₀⟩ :=
      exists_first_true (p := fun x => (w.outputs x).changeFails) ⟨o, hmem, hoFail⟩
    rw [change_state_async_commitfail_eq n w mid lbl pre post o₀ h1 h2 hacq hsplit hpre ho₀]
    exact ⟨rfl, ⟨o₀, rfl, ho₀⟩, fun o => by simp [List.mem_append, List.mem_map]⟩

theorem commit_failure_semantics_witness :
    ((∀ o ∈ (commitW.machines 0).output_callbacks,
        (commitW.outputs o).acquireFails "b" = false) ∧
      (∃ o ∈ (commitW.machines 0).output_callbacks, (commitW.outputs o).changeFails = true)) ∧
    ((change_state 1 commitW 0 "b").world = commitW ∧
     (∃ o, (change_state 1 commitW 0 "b").error = some (.commitFailed 0 o) ∧
        (commitW.outputs o).changeFails = true) ∧
     (∀ o, Event.release 0 o ∉ (change_state 1 commitW 0 "b").trace)) ∧
    ((change_state_async 1 commitW 0 "b").world = commitW ∧
     (∃ o, (change_state_async 1 commitW 0 "b").error = some (.commitFailed 0 o) ∧
        (commitW.outputs o).changeFails = true) ∧
     (∀ o, Event.release 0 o ∉ (change_state_async 1 commitW 0 "b").trace)) :=
  ⟨⟨by decide, by decide⟩,
   commit_failure_semantics.1 0 commitW 0 "b" (by decide) (by decide) (by rfl)
     (by decide) (by decide),
   commit_failure_semantics.2 0 commitW 0 "b" (by decide) (by decide) (by decide) (by decide)⟩

/-- Outcome of `change_state` when lock and commit succeed and the
propagation loop raises: the propagated world and error are returned,
and no `release_lock` is issued by this call. -/
theorem change_state_prop_err_eq (n : Nat) (w : World) (mid : MachineId) (lbl : Label)
    (w1 : World) (devs : List Event) (e : Err)
    (h1 : lbl ∈ (w.machines mid).states)
    (h2 : (w.machines mid).current_state ≠ some lbl)
    (h3 : check_for_async (n + 1) w mid = .ok ())
    (hacq : ∀ o ∈ (w.machines mid).output_callbacks, (w.outputs o).acquireFails lbl = false)
    (hchg : ∀ o ∈ (w.machines mid).output_callbacks, (w.outputs o).changeFails = false)
    (hrun : runEdges (change_state n) w (lookupWiring (w.machines mid) lbl) =
      ⟨w1, devs, some e⟩) :
    change_state (n + 1) w mid lbl =
      ⟨w1, ((w.machines mid).output_callbacks).map (fun o => .acquire mid o lbl) ++
            (((w.machines mid).output_callbacks).map (fun o => .change mid o) ++ devs),
        some e⟩ := by
  simp [change_state, check_change_state_true w mid lbl h1 h2, h3,
    lockPhase_ok w mid lbl _ hacq, commitPhase_ok w mid _ hchg, hrun]

/-- Outcome of a fully successful `change_state`: acquires, then changes,
then the propagation trace, then `current_state := lbl`, then releases. -/
theorem change_state_prop_ok_eq (n : Nat) (w : World) (mid : MachineId) (lbl : Label)
    (w1 : World) (devs : List Event)
    (h1 : lbl ∈ (w.machines mid).states)
    (h2 : (w.machines mid).current_state ≠ some lbl)
    (h3 : check_for_async (n + 1) w mid = .ok ())
    (hacq : ∀ o ∈ (w.machines mid).output_callbacks, (w.outputs o).acquireFails lbl = false)
    (hchg : ∀ o ∈ (w.machines mid).output_callbacks, (w.outputs o).changeFails = false)
    (hrun : runEdges (change_state n) w (lookupWiring (w.machines mid) lbl) =
      ⟨w1, devs, none⟩) :
    change_state (n + 1) w mid lbl =
      ⟨setCurrent w1 mid lbl,
        ((w.machines mid).output_callbacks).map (fun o => .acquire mid o lbl) ++
          (((w.machines mid).output_callbacks).map (fun o => .change mid o) ++
            (devs ++ ((w.machines mid).output_callbacks).map (fun o => .release mid o))),
        none⟩ := by
  simp [change_state, check_change_state_true w mid lbl h1 h2, h3,
    lockPhase_ok w mid lbl _ hacq, commitPhase_ok w mid _ hchg, hrun, releaseEvents]

/-- Async analogue of `change_state_prop_err_eq`. -/
theorem change_state_async_prop_err_eq (n : Nat) (w : World) (mid : MachineId) (lbl : Label)
    (w1 : World) (devs : List Event) (e : Err)
    (h1 : lbl ∈ (w.machines mid).states)
    (h2 : (w.machines mid).current_state ≠ some lbl)
    (hacq : ∀ o ∈ (w.machines mid).output_callbacks, (w.outputs o).acquireFails lbl = false)
    (hchg : ∀ o ∈ (w.machines mid).output_callbacks, (w.outputs o).changeFails = false)
    (hrun : runEdges (change_state_async n) w (lookupWiring (w.machines mid) lbl) =
      ⟨w1, devs, some e⟩) :
    change_state_async (n + 1) w mid lbl =
      ⟨w1, ((w.machines mid).output_callbacks).map (fun o => .acquire mid o lbl) ++
            ((((w.machines mid).output_callbacks).filter
                  (fun o => !(w.outputs o).require_async) ++
                ((w.machines mid).output_callbacks).filter
                  (fun o => (w.outputs o).require_async)).map (fun o => .change mid o) ++
              devs),
        some e⟩ := by
  have hc : ∀ o ∈ ((w.machines mid).output_callbacks).filter
        (fun o => !(w.outputs o).require_async) ++
      ((w.machines mid).output_callbacks).filter
        (fun o => (w.outputs o).require_async), (w.outputs o).changeFails = false := by
    intro o ho
    rcases List.mem_append.mp ho with h | h
    · exact hchg o (List.mem_filter.mp h).1
    · exact hchg o (List.mem_filter.mp h).1
  simp [change_state_async, check_change_state_true w mid lbl h1 h2,
    lockPhaseAsync_ok w mid lbl _ hacq, commitPhase_ok w mid _ hc, hrun]

/-- Async analogue of `change_state_prop_ok_eq`. -/
theorem change_state_async_prop_ok_eq (n : Nat) (w : World) (mid : MachineId) (lbl : Label)
    (w1 : World) (devs : List Event)
    (h1 : lbl ∈ (w.machines mid).states)
    (h2 : (w.machines mid).current_state ≠ some lbl)
    (hacq : ∀ o ∈ (w.machines mid).output_callbacks, (w.outputs o).acquireFails lbl = false)
    (hchg : ∀ o ∈ (w.machines mid).output_callbacks, (w.outputs o).changeFails = false)
    (hrun : runEdges (change_state_async n) w (lookupWiring (w.machines mid) lbl) =
      ⟨w1, devs, none⟩) :
    change_state_async (n + 1) w mid lbl =
      ⟨setCurrent w1 mid lbl,
        ((w.machines mid).output_callbacks).map (fun o => .acquire mid o lbl) ++
          ((((w.machines mid).output_callbacks).filter
                (fun o => !(w.outputs o).require_async) ++
              ((w.machines mid).output_callbacks).filter
                (fun o => (w.outputs o).require_async)).map (fun o => .change mid o) ++
            (devs ++
              (((w.machines mid).output_callbacks).filter
                  (fun o => !(w.outputs o).require_async) ++
                ((w.machines mid).output_callbacks).filter
                  (fun o => (w.outputs o).require_async)).map (fun o => .release mid o))),
        none⟩ := by
  have hc : ∀ o ∈ ((w.machines mid).output_callbacks).filter
        (fun o => !(w.outputs o).require_async) ++
      ((w.machines mid).output_callbacks).filter
        (fun o => (w.outputs o).require_async), (w.outputs o).changeFails = false := by
    intro o ho
    rcases List.mem_append.mp ho with h | h
    · exact hchg o (List.mem_filter.mp h).1
    · exact hchg o (List.mem_filter.mp h).1
  simp [change_state_async, check_change_state_true w mid lbl h1 h2,
    lockPhaseAsync_ok w mid lbl _ hacq, commitPhase_ok w mid _ hc, hrun, releaseEvents]

/-- Turn the absence of a failing output into the pointwise `= false` form. -/
theorem all_false_of_not_exists {p : OutputId → Bool} {l : List OutputId}
    (h : ¬ ∃ o ∈ l, p o = true) : ∀ o ∈ l, p o = false := by
  intro o ho
  cases hb : p o with
  | false => rfl
  | true => exact absurd ⟨o, ho, hb⟩ h

/-- C4 (lock/commit exclusivity): in any completed transition (either
entry point), the machine's outputs observe `acquire_lock` on every
output first, then `change` on every output, then the downstream
propagation trace, then `release_lock` on every output — in particular
no output's `change()` is invoked before `acquire_lock` has returned
successfully on all bound outputs, and each output sees
`acquire → change → release` in that order. -/
theorem lock_commit_order :
    (∀ (n : Nat) (w : World) (mid : MachineId) (lbl : Label),
      lbl ∈ (w.machines mid).states →
      (w.machines mid).current_state ≠ some lbl →
      (change_state (n + 1) w mid lbl).error = none →
      ∃ D, (change_state (n + 1) w mid lbl).trace =
        ((w.machines mid).output_callbacks).map (fun o => .acquire mid o lbl) ++
        (((w.machines mid).output_callbacks).map (fun o => .change mid o) ++
          (D ++ ((w.machines mid).output_callbacks).map (fun o => .release mid o)))) ∧
    (∀ (n : Nat) (w : World) (mid : MachineId) (lbl : Label),
      lbl ∈ (w.machines mid).states →
      (w.machines mid).current_state ≠ some lbl →
      (change_state_async (n + 1) w mid lbl).error = none →
      ∃ D, (change_state_async (n + 1) w mid lbl).trace =
        ((w.machines mid).output_callbacks).map (fun o => .acquire mid o lbl) ++
        ((((w.machines mid).output_callbacks).filter
              (fun o => !(w.outputs o).require_async) ++
            ((w.machines mid).output_callbacks).filter
              (fun o => (w.outputs o).require_async)).map (fun o => .change mid o) ++
          (D ++ (((w.machines mid).output_callbacks).filter
              (fun o => !(w.outputs o).require_async) ++
            ((w.machines mid).output_callbacks).filter
              (fun o => (w.outputs o).require_async)).map (fun o => .release mid o)))) := by
  constructor
  · intro n w mid lbl h1 h2 herr
    cases hcfa : check_for_async (n + 1) w mid with
    | error e =>
      have hx : change_state (n + 1) w mid lbl = ⟨w, [], some e⟩ := by
        simp [change_state, check_change_state_true w mid lbl h1 h2, hcfa]
      rw [hx] at herr
      simp at herr
    | ok u =>
      cases u
      by_cases hacq : ∃ o ∈ (w.machines mid).output_callbacks,
          (w.outputs o).acquireFails lbl = true
      · obtain ⟨pre, o₀, post, hsplit, hpre, ho⟩ := exists_first_true hacq
        rw [change_state_veto_eq n w mid lbl pre post o₀ h1 h2 hcfa hsplit hpre ho] at herr
        simp at herr
      · have hacq' := all_false_of_not_exists hacq
        by_cases hchg : ∃ o ∈ (w.machines mid).output_callbacks,
            (w.outputs o).changeFails = true
        · obtain ⟨pre, o₀, post, hsplit, hpre, ho⟩ := exists_first_true hchg
          rw [change_state_commitfail_eq n w mid lbl pre post o₀ h1 h2 hcfa hacq'
            hsplit hpre ho] at herr
          simp at herr
        · have hchg' := all_false_of_not_exists hchg
          rcases hrun : runEdges (change_state n) w (lookupWiring (w.machines mid) lbl) with
            ⟨w1, devs, derr⟩
          cases derr with
          | some e =>
            rw [change_state_prop_err_eq n w mid lbl w1 devs e h1 h2 hcfa hacq' hchg'
              hrun] at herr
            simp at herr
          | none =>
            rw [change_state_prop_ok_eq n w mid lbl w1 devs h1 h2 hcfa hacq' hchg' hrun]
            exact ⟨devs, rfl⟩
  · intro n w mid lbl h1 h2 herr
    by_cases hacq : ∃ o ∈ (w.machines mid).output_callbacks,
        (w.outputs o).acquireFails lbl = true
    · obtain ⟨pre, o₀, post, hsplit, hpre, ho⟩ := exists_first_true hacq
      rw [change_state_async_veto_eq n w mid lbl pre post o₀ h1 h2 hsplit hpre ho] at herr
      simp at herr
    · have hacq' := all_false_of_not_exists hacq
      by_cases hchg : ∃ o ∈ (w.machines mid).output_callbacks,
          (w.outputs o).changeFails = true
      · obtain ⟨o, hoMem, hoFail⟩ := hchg
        have hmem : o ∈ ((w.machines mid).output_callbacks).filter
              (fun x => !(w.outputs x).require_async) ++
            ((w.machines mid).output_callbacks).filter
              (fun x => (w.outputs x).require_async) := by
          rcases mem_filter_or (fun x => !(w.outputs x).require_async)
              (w.machines mid).output_callbacks o hoMem with h | h
          · exact List.mem_append.mpr (Or.inl h)
          · refine List.mem_append.mpr (Or.inr ?_)
            refine List.mem_filter.mpr ⟨(List.mem_filter.mp h).1, ?_⟩
            have := (List.mem_filter.mp h).2
            simpa using this
        obtain ⟨pre, o₀, post, hsplit, hpre, ho₀⟩ :=
          exists_first_true (p := fun x => (w.outputs x).changeFails) ⟨o, hmem, hoFail⟩
        rw [change_state_async_commitfail_eq n w mid lbl pre post o₀ h1 h2 hacq'
          hsplit hpre ho₀] at herr
        simp at herr
      · have hchg' := all_false_of_not_exists hchg
        rcases hrun : runEdges (change_state_async n) w (lookupWiring (w.machines mid) lbl)
          with ⟨w1, devs, derr⟩
        cases derr with
        | some e =>
          rw [change_state_async_prop_err_eq n w mid lbl w1 devs e h1 h2 hacq' hchg'
            hrun] at herr
          simp at herr
        | none =>
          rw [change_state_async_prop_ok_eq n w mid lbl w1 devs h1 h2 hacq' hchg' hrun]
          exact ⟨devs, rfl⟩

theorem lock_commit_order_witness :
    ("offline" ∈ (exW.machines 0).states ∧ (exW.machines 0).current_state ≠ some "offline" ∧
      (change_state 1 exW 0 "offline").error = none ∧
      (change_state_async 1 exW 0 "offline").error = none) ∧
    (∃ D, (change_state 1 exW 0 "offline").trace =
      ((exW.machines 0).output_callbacks).map (fun o => .acquire 0 o "offline") ++
      (((exW.machines 0).output_callbacks).map (fun o => .change 0 o) ++
        (D ++ ((exW.machines 0).output_callbacks).map (fun o => .release 0 o)))) ∧
    (∃ D, (change_state_async 1 exW 0 "offline").trace =
      ((exW.machines 0).output_callbacks).map (fun o => .acquire 0 o "offline") ++
      ((((exW.machines 0).output_callbacks).filter
            (fun o => !(exW.outputs o).require_async) ++
          ((exW.machines 0).output_callbacks).filter
            (fun o => (exW.outputs o).require_async)).map (fun o => .change 0 o) ++
        (D ++ (((exW.machines 0).output_callbacks).filter
            (fun o => !(exW.outputs o).require_async) ++
          ((exW.machines 0).output_callbacks).filter
            (fun o => (exW.outputs o).require_async)).map (fun o => .release 0 o)))) :=
  ⟨⟨by decide, by decide, by decide, by decide⟩,
   lock_commit_order.1 0 exW 0 "offline" (by decide) (by decide) (by decide),
   lock_commit_order.2 0 exW 0 "offline" (by decide) (by decide) (by decide)⟩

/-- Looking up the appended key after `assocAppend` yields the old list
with the new edge at the end. -/
theorem lookupWiring_assocAppend (m : Machine) (key : Label) (e : MachineId × Label) :
    lookupWiring { m with post_change_callbacks := assocAppend m.post_change_callbacks key e }
        key = lookupWiring m key ++ [e] := by
  show (match (assocAppend m.post_change_callbacks key e).find? (fun kv => kv.1 == key) with
      | some kv => kv.2
      | none => []) =
    (match m.post_change_callbacks.find? (fun kv => kv.1 == key) with
      | some kv => kv.2
      | none => []) ++ [e]
  induction m.post_change_callbacks with
  | nil => simp [assocAppend]
  | cons kv rest ih =>
    rcases kv with ⟨k, es⟩
    by_cases hk : k = key
    · subst hk
      simp [assocAppend, List.find?]
    · simp only [assocAppend, beq_iff_eq, if_neg hk, List.find?]
      rw [show (k == key) = false by simpa using hk]
      simpa using ih

/-- C8: `__setattr__` wiring convenience syntax, evaluated at the failing
input `door.closed = [connectivity.on, connectivity.off]`.  Assigning a
LIST of handles installs nothing (the lazy `map(...)` is discarded), so
the source machine's wiring stays empty; a SINGLE handle does install
the edge, and a truthy non-handle value does trigger the transition. -/
theorem setattr_list_installs_nothing :
    setattr_state 1 wireW 0 "closed" (SetValue.handleList [(1, "on"), (1, "off")]) =
      ⟨wireW, [], none⟩ ∧
    (wireW.machines 1).post_change_callbacks = [] ∧
    (((setattr_state 1 wireW 0 "closed" (SetValue.handle 1 "on")).world.machines 1)
        |>.post_change_callbacks) = [("on", [(0, "closed")])] ∧
    (((setattr_state 1 wireW 0 "closed" (SetValue.other true)).world.machines 0)
        |>.current_state) = some "closed" :=
  ⟨rfl, by decide, by decide, by decide⟩

/-- C9 counterexample: `set_input` with a local label `"bogus"` not in
machine 0's labels and a source label `"nope"` not in machine 1's labels
raises nothing and installs the edge anyway: afterwards machine 1's
wiring maps `"nope"` to `[(0, "bogus")]`, so the claimed WiringMismatch
validation does not exist and the wiring invariant is broken. -/
theorem set_input_no_validation_cex :
    "bogus" ∉ (wireW.machines 0).states ∧
    "nope" ∉ (wireW.machines 1).states ∧
    ((set_input wireW 0 [("bogus", [(1, "nope")])]).machines 1).post_change_callbacks =
      [("nope", [(0, "bogus")])] :=
  ⟨by decide, by decide, by decide⟩

/-- C9 (amended): wiring installation performs no label validation:
for arbitrary labels — known or unknown on either machine — `set_input`
appends one edge `(self, state)` to the source machine's wiring under
the source label and raises nothing (the `all(check_state_tuple(...))`
type-shape expression is evaluated and discarded).  Unknown labels
surface only later, at transition time, via `check_change_state`. -/
theorem set_input_installs_unconditionally (w : World) (mid : MachineId)
    (state : Label) (src : MachineId) (srcLbl : Label) :
    lookupWiring ((set_input w mid [(state, [(src, srcLbl)])]).machines src) srcLbl =
      lookupWiring (w.machines src) srcLbl ++ [(mid, state)] := by
  show lookupWiring ((addEdge w src srcLbl mid state).machines src) srcLbl =
    lookupWiring (w.machines src) srcLbl ++ [(mid, state)]
  simp only [addEdge, if_pos rfl]
  exact lookupWiring_assocAppend (w.machines src) srcLbl (mid, state)

/-! ## Static-data frame lemmas: transitions only write `current_state` -/

theorem staticEq_refl (w : World) : StaticEq w w :=
  ⟨fun _ => ⟨rfl, rfl, rfl⟩, rfl⟩

theorem staticEq_trans {w1 w2 w3 : World} (h1 : StaticEq w1 w2) (h2 : StaticEq w2 w3) :
    StaticEq w1 w3 :=
  ⟨fun m => ⟨(h1.1 m).1.trans (h2.1 m).1, (h1.1 m).2.1.trans (h2.1 m).2.1,
    (h1.1 m).2.2.trans (h2.1 m).2.2⟩, h1.2.trans h2.2⟩

theorem staticEq_symm {w1 w2 : World} (h : StaticEq w1 w2) : StaticEq w2 w1 :=
  ⟨fun m => ⟨(h.1 m).1.symm, (h.1 m).2.1.symm, (h.1 m).2.2.symm⟩, h.2.symm⟩

theorem staticEq_setCurrent (w : World) (mid : MachineId) (lbl : Label) :
    StaticEq w (setCurrent w mid lbl) := by
  refine ⟨fun m => ?_, rfl⟩
  by_cases h : m = mid <;> simp [setCurrent, h]

theorem destsOf_staticEq {w w' : World} (h : StaticEq w w') (m : MachineId) :
    destsOf (w'.machines m) = destsOf (w.machines m) := by
  unfold destsOf
  rw [(h.1 m).2.2]

theorem rankOk_staticEq {w w' : World} {rank : MachineId → Nat}
    (h : StaticEq w w') (hr : RankOk w rank) : RankOk w' rank := by
  intro m d hd
  rw [destsOf_staticEq h] at hd
  exact hr m d hd

theorem reachesAll_staticEq {w w' : World} (h : StaticEq w w') {a b : MachineId}
    (hr : ReachesAll w a b) : ReachesAll w' a b := by
  induction hr with
  | refl m => exact .refl m
  | step hd _ ih =>
    exact .step (by rwa [destsOf_staticEq h]) ih

theorem machineHasAsync_staticEq {w w' : World} (h : StaticEq w w') (m : MachineId) :
    machineHasAsync w' m = machineHasAsync w m := by
  unfold machineHasAsync
  rw [(h.1 m).2.1, h.2]

theorem lookupWiring_staticEq {w w' : World} (h : StaticEq w w') (m : MachineId) (lbl : Label) :
    lookupWiring (w'.machines m) lbl = lookupWiring (w.machines m) lbl := by
  unfold lookupWiring
  rw [(h.1 m).2.2]

theorem runEdges_static (step : World → MachineId → Label → Outcome)
    (hstep : ∀ w d dl, StaticEq w (step w d dl).world) :
    ∀ (edges : List (MachineId × Label)) (w : World),
      StaticEq w (runEdges step w edges).world := by
  intro edges
  induction edges with
  | nil => intro w; exact staticEq_refl w
  | cons p rest ih =>
    intro w
    rcases p with ⟨d, dl⟩
    rcases hs : step w d dl with ⟨w1, tr1, err⟩
    have h1 : StaticEq w w1 := by
      have := hstep w d dl
      rwa [hs] at this
    cases err with
    | some e => simpa [runEdges, hs] using h1
    | none =>
      rcases hr : runEdges step w1 rest with ⟨w2, tr2, err2⟩
      have h2 : StaticEq w1 w2 := by
        have := ih w1
        rwa [hr] at this
      simpa [runEdges, hs, hr] using staticEq_trans h1 h2

theorem change_state_static :
    ∀ (n : Nat) (w : World) (mid : MachineId) (lbl : Label),
      StaticEq w (change_state n w mid lbl).world := by
  intro n
  induction n with
  | zero => intro w mid lbl; exact staticEq_refl w
  | succ n ih =>
    intro w mid lbl
    simp only [change_state]
    split
    · exact staticEq_refl w
    · exact staticEq_refl w
    · split
      · exact staticEq_refl w
      · split
        · exact staticEq_refl w
        · split
          · exact staticEq_refl w
          · split
            · rename_i w1 devs e heq
              have := runEdges_static (change_state n) (fun w d dl => ih w d dl)
                (lookupWiring (w.machines mid) lbl) w
              rwa [heq] at this
            · rename_i w1 devs heq
              have h1 := runEdges_static (change_state n) (fun w d dl => ih w d dl)
                (lookupWiring (w.machines mid) lbl) w
              rw [heq] at h1
              exact staticEq_trans h1 (staticEq_setCurrent w1 mid lbl)

theorem change_state_async_static :
    ∀ (n : Nat) (w : World) (mid : MachineId) (lbl : Label),
      StaticEq w (change_state_async n w mid lbl).world := by
  intro n
  induction n with
  | zero => intro w mid lbl; exact staticEq_refl w
  | succ n ih =>
    intro w mid lbl
    simp only [change_state_async]
    split
    · exact staticEq_refl w
    · exact staticEq_refl w
    · split
      · exact staticEq_refl w
      · split
        · exact staticEq_refl w
        · split
          · rename_i w1 devs e heq
            have := runEdges_static (change_state_async n) (fun w d dl => ih w d dl)
              (lookupWiring (w.machines mid) lbl) w
            rwa [heq] at this
          · rename_i w1 devs heq
            have h1 := runEdges_static (change_state_async n) (fun w d dl => ih w d dl)
              (lookupWiring (w.machines mid) lbl) w
            rw [heq] at h1
            exact staticEq_trans h1 (staticEq_setCurrent w1 mid lbl)

/-! ## `check_for_async` walks exactly the any-label reachability closure -/

theorem cfaGo_spec (w : World) (rank : MachineId → Nat) (n : Nat)
    (IH : ∀ d, rank d < n →
      (check_for_async n w d = .ok () ∧ NoAsyncFrom w d) ∨
      (∃ m', check_for_async n w d = .error (.asyncRequired m') ∧
        ReachesAll w d m' ∧ machineHasAsync w m' = true)) :
    ∀ (dests checked : List MachineId),
      (∀ d ∈ dests, rank d < n) →
      (∀ x ∈ checked, NoAsyncFrom w x) →
      (cfaGo (check_for_async n w) checked dests = .ok () ∧
        ∀ d ∈ dests, NoAsyncFrom w d) ∨
      (∃ m' d, d ∈ dests ∧
        cfaGo (check_for_async n w) checked dests = .error (.asyncRequired m') ∧
        ReachesAll w d m' ∧ machineHasAsync w m' = true) := by
  intro dests
  induction dests with
  | nil =>
    intro checked _ _
    left
    exact ⟨rfl, by simp⟩
  | cons d rest ihd =>
    intro checked hrk hchk
    by_cases hd : d ∈ checked
    · rcases ihd checked (fun x hx => hrk x (by simp [hx])) hchk with
        ⟨hok, hall⟩ | ⟨m', d', hd', herr, hr, hasync⟩
      · left
        refine ⟨by simp [cfaGo, hd, hok], ?_⟩
        intro x hx
        rcases List.mem_cons.mp hx with rfl | hx'
        · exact hchk x hd
        · exact hall x hx'
      · right
        exact ⟨m', d', by simp [hd'], by simp [cfaGo, hd, herr], hr, hasync⟩
    · rcases IH d (hrk d (by simp)) with ⟨hok, hnfa⟩ | ⟨m', herr, hr, hasync⟩
      · have hchk' : ∀ x ∈ checked ++ [d], NoAsyncFrom w x := by
          intro x hx
          rcases List.mem_append.mp hx with h | h
          · exact hchk x h
          · simp at h
            subst h
            exact hnfa
        rcases ihd (checked ++ [d]) (fun x hx => hrk x (by simp [hx])) hchk' with
          ⟨hok2, hall⟩ | ⟨m', d', hd', herr, hr, hasync⟩
        · left
          refine ⟨by simp [cfaGo, hd, hok, hok2], ?_⟩
          intro x hx
          rcases List.mem_cons.mp hx with rfl | hx'
          · exact hnfa
          · exact hall x hx'
        · right
          exact ⟨m', d', by simp [hd'], by simp [cfaGo, hd, hok, herr], hr, hasync⟩
      · right
        exact ⟨m', d, by simp, by simp [cfaGo, hd, herr], hr, hasync⟩

theorem check_for_async_spec (rank : MachineId → Nat) :
    ∀ (fuel : Nat) (w : World) (mid : MachineId), RankOk w rank → rank mid < fuel →
      (check_for_async fuel w mid = .ok () ∧ NoAsyncFrom w mid) ∨
      (∃ m', check_for_async fuel w mid = .error (.asyncRequired m') ∧
        ReachesAll w mid m' ∧ machineHasAsync w m' = true) := by
  intro fuel
  induction fuel with
  | zero => intro w mid _ h; omega
  | succ n ih =>
    intro w mid hrk hlt
    by_cases ha : machineHasAsync w mid = true
    · right
      exact ⟨mid, by simp [check_for_async, ha], .refl mid, ha⟩
    · have ha' : machineHasAsync w mid = false := by simpa using ha
      have hdst : ∀ d ∈ destsOf (w.machines mid), rank d < n := by
        intro d hd
        have := hrk mid d hd
        omega
      rcases cfaGo_spec w rank n (fun d hdlt => ih w d hrk hdlt)
          (destsOf (w.machines mid)) [] hdst (by simp) with
        ⟨hok, hall⟩ | ⟨m', d, hd, herr, hr, hasync⟩
      · left
        refine ⟨by simp [check_for_async, ha', hok], ?_⟩
        intro m' hm'
        cases hm' with
        | refl => exact ha'
        | step hd hr => exact hall _ hd _ hr
      · right
        exact ⟨m', by simp [check_for_async, ha', herr], .step hd hr, hasync⟩

/-! ## Termination on ranked (acyclic) wiring graphs -/

theorem check_change_state_error {w : World} {mid : MachineId} {lbl : Label} {e : Err}
    (h : check_change_state w mid lbl = .error e) : e = .unknownLabel mid lbl := by
  simp only [check_change_state] at h
  split at h
  · split at h <;> simp at h
  · simpa using h.symm

theorem fst_mem_destsOfEntries {l : List (Label × List (MachineId × Label))}
    {kv : Label × List (MachineId × Label)} {p : MachineId × Label}
    (hkv : kv ∈ l) (hp : p ∈ kv.2) : p.1 ∈ destsOfEntries l := by
  induction l with
  | nil => simp at hkv
  | cons kv' rest ih =>
    rcases List.mem_cons.mp hkv with rfl | h
    · exact List.mem_append.mpr (Or.inl (List.mem_map.mpr ⟨p, hp, rfl⟩))
    · exact List.mem_append.mpr (Or.inr (ih h))

theorem fst_mem_destsOf {m : Machine} {lbl : Label} {p : MachineId × Label}
    (hp : p ∈ lookupWiring m lbl) : p.1 ∈ destsOf m := by
  unfold lookupWiring at hp
  rcases hf : m.post_change_callbacks.find? (fun kv => kv.1 == lbl) with _ | kv
  · rw [hf] at hp
    simp at hp
  · rw [hf] at hp
    exact fst_mem_destsOfEntries (List.mem_of_find?_eq_some hf) hp

theorem runEdges_no_fuel (step : World → MachineId → Label → Outcome)
    (rank : MachineId → Nat) (bound : Nat)
    (hstatic : ∀ w d dl, StaticEq w (step w d dl).world)
    (hstep : ∀ w (d : MachineId) (dl : Label), RankOk w rank → rank d < bound →
      (step w d dl).error ≠ some .outOfFuel) :
    ∀ (edges : List (MachineId × Label)) (w : World), RankOk w rank →
      (∀ p ∈ edges, rank p.1 < bound) →
      (runEdges step w edges).error ≠ some .outOfFuel := by
  intro edges
  induction edges with
  | nil => intro w _ _; simp [runEdges]
  | cons p rest ih =>
    intro w hrk hb
    rcases p with ⟨d, dl⟩
    rcases hs : step w d dl with ⟨w1, tr1, err⟩
    have h1 : StaticEq w w1 := by
      have := hstatic w d dl
      rwa [hs] at this
    cases err with
    | some e =>
      have := hstep w d dl hrk (hb (d, dl) (by simp))
      rw [hs] at this
      simpa [runEdges, hs] using this
    | none =>
      have := ih w1 (rankOk_staticEq h1 hrk) (fun q hq => hb q (by simp [hq]))
      rcases hr : runEdges step w1 rest with ⟨w2, tr2, err2⟩
      rw [hr] at this
      simpa [runEdges, hs, hr] using this

theorem change_state_no_fuel_err (rank : MachineId → Nat) :
    ∀ (fuel : Nat) (w : World) (mid : MachineId) (lbl : Label),
      RankOk w rank → rank mid < fuel →
      (change_state fuel w mid lbl).error ≠ some .outOfFuel := by
  intro fuel
  induction fuel with
  | zero => intro w mid lbl _ h; omega
  | succ n ih =>
    intro w mid lbl hrk hlt
    simp only [change_state]
    split
    · rename_i e heq
      have := check_change_state_error heq
      simp [this]
    · simp
    · split
      · rename_i e heq
        rcases check_for_async_spec rank (n + 1) w mid hrk hlt with ⟨hok, _⟩ | ⟨m', herr, _, _⟩
        · rw [hok] at heq
          simp at heq
        · rw [herr] at heq
          simp at heq
          simp [← heq]
      · split
        · simp
        · split
          · simp
          · have hd : ∀ p ∈ lookupWiring (w.machines mid) lbl, rank p.1 < n := by
              intro p hp
              have := hrk mid p.1 (fst_mem_destsOf hp)
              omega
            have hrun := runEdges_no_fuel (change_state n) rank n
              (fun w d dl => change_state_static n w d dl)
              (fun w d dl hk hlt' => ih w d dl hk hlt')
              (lookupWiring (w.machines mid) lbl) w hrk hd
            split
            · rename_i w1 devs e heq
              rw [heq] at hrun
              simpa using hrun
            · simp

theorem change_state_async_no_fuel_err (rank : MachineId → Nat) :
    ∀ (fuel : Nat) (w : World) (mid : MachineId) (lbl : Label),
      RankOk w rank → rank mid < fuel →
      (change_state_async fuel w mid lbl).error ≠ some .outOfFuel := by
  intro fuel
  induction fuel with
  | zero => intro w mid lbl _ h; omega
  | succ n ih =>
    intro w mid lbl hrk hlt
    simp only [change_state_async]
    split
    · rename_i e heq
      have := check_change_state_error heq
      simp [this]
    · simp
    · split
      · simp
      · split
        · simp
        · have hd : ∀ p ∈ lookupWiring (w.machines mid) lbl, rank p.1 < n := by
            intro p hp
            have := hrk mid p.1 (fst_mem_destsOf hp)
            omega
          have hrun := runEdges_no_fuel (change_state_async n) rank n
            (fun w d dl => change_state_async_static n w d dl)
            (fun w d dl hk hlt' => ih w d dl hk hlt')
            (lookupWiring (w.machines mid) lbl) w hrk hd
          split
          · rename_i w1 devs e heq
            rw [heq] at hrun
            simpa using hrun
          · simp

/-! ## Non-termination on a wiring cycle -/

theorem cfa_cycW_diverges :
    ∀ n, check_for_async n cycW 0 = .error .outOfFuel ∧
      check_for_async n cycW 1 = .error .outOfFuel := by
  intro n
  induction n with
  | zero => exact ⟨rfl, rfl⟩
  | succ n ih =>
    have h0 : machineHasAsync cycW 0 = false := by decide
    have h1 : machineHasAsync cycW 1 = false := by decide
    have d0 : destsOf (cycW.machines 0) = [1] := by decide
    have d1 : destsOf (cycW.machines 1) = [0] := by decide
    constructor
    · rw [check_for_async, d0]
      simp [h0, cfaGo, ih.2]
    · rw [check_for_async, d1]
      simp [h1, cfaGo, ih.1]

theorem change_state_cycW_diverges :
    ∀ n, (change_state n cycW 0 "b").error = some .outOfFuel := by
  intro n
  cases n with
  | zero => rfl
  | succ n =>
    have hc : check_change_state cycW 0 "b" = .ok true := rfl
    simp [change_state, hc, (cfa_cycW_diverges (n + 1)).1]

theorem change_state_async_cycW_diverges :
    ∀ n, (change_state_async n cycW 0 "b").error = some .outOfFuel ∧
      (change_state_async n cycW 1 "b").error = some .outOfFuel := by
  intro n
  induction n with
  | zero => exact ⟨rfl, rfl⟩
  | succ n ih =>
    have hc0 : check_change_state cycW 0 "b" = .ok true := rfl
    have hc1 : check_change_state cycW 1 "b" = .ok true := rfl
    have hl0 : lookupWiring (cycW.machines 0) "b" = [(1, "b")] := by decide
    have hl1 : lookupWiring (cycW.machines 1) "b" = [(0, "b")] := by decide
    have ho0 : (cycW.machines 0).output_callbacks = [] := rfl
    have ho1 : (cycW.machines 1).output_callbacks = [] := rfl
    constructor
    · rcases hs : change_state_async n cycW 1 "b" with ⟨w1, tr1, err⟩
      have he : err = some .outOfFuel := by
        have := ih.2
        rwa [hs] at this
      subst he
      simp [change_state_async, hc0, hl0, ho0, lockPhaseAsync, commitPhase, runEdges, hs]
    · rcases hs : change_state_async n cycW 0 "b" with ⟨w1, tr1, err⟩
      have he : err = some .outOfFuel := by
        have := ih.1
        rwa [hs] at this
      subst he
      simp [change_state_async, hc1, hl1, ho1, lockPhaseAsync, commitPhase, runEdges, hs]

/-- C2 counterexample: on the two-machine wiring cycle `cycW`
(machine 0 fires machine 1 to `"b"` on entering `"b"` and vice versa,
both currently at `"a"`), neither `change_state` nor `change_state_async`
terminates for any recursion-depth budget: `current_state` is updated
only *after* the propagation phase, so the no-op shortcut never fires
along the cycle (and `check_for_async` recurses through the same cycle
first).  This refutes the claim that cycles are bounded by the no-op
shortcut. -/
theorem cycle_nontermination_cex :
    ¬ TerminatesChangeState cycW 0 "b" ∧ ¬ TerminatesChangeStateAsync cycW 0 "b" := by
  constructor
  · rintro ⟨fuel, h⟩
    exact h (change_state_cycW_diverges fuel)
  · rintro ⟨fuel, h⟩
    exact h ((change_state_async_cycW_diverges fuel).1)

/-- C2 (amended): both transition entry points terminate on every wiring
graph that admits a topological ranking (equivalently, whose wiring
edges form no directed cycle): a recursion-depth budget of
`rank(start) + 1` always suffices.  On cyclic wiring the recursion need
not terminate (see the counterexample): `current_state` is assigned only
after propagation, so a cycle never hits the no-op shortcut. -/
theorem transition_terminates_of_acyclic :
    ∀ (w : World) (rank : MachineId → Nat), RankOk w rank →
      ∀ (mid : MachineId) (lbl : Label),
        TerminatesChangeState w mid lbl ∧ TerminatesChangeStateAsync w mid lbl :=
  fun w rank hrk mid lbl =>
    ⟨⟨rank mid + 1,
      change_state_no_fuel_err rank (rank mid + 1) w mid lbl hrk (by omega)⟩,
     ⟨rank mid + 1,
      change_state_async_no_fuel_err rank (rank mid + 1) w mid lbl hrk (by omega)⟩⟩

theorem transition_terminates_of_acyclic_witness :
    TerminatesChangeState exW 0 "offline" ∧ TerminatesChangeStateAsync exW 0 "offline" :=
  transition_terminates_of_acyclic exW (fun _ => 0)
    (by
      intro m d hd
      simp [exW, destsOf, destsOfEntries] at hd)
    0 "offline"

/-! ## Where an `AsyncRequired` error can come from -/

theorem runEdges_error_origin (step : World → MachineId → Label → Outcome)
    (hstatic : ∀ w d dl, StaticEq w (step w d dl).world) :
    ∀ (edges : List (MachineId × Label)) (w : World) (e : Err),
      (runEdges step w edges).error = some e →
      ∃ d dl w', (d, dl) ∈ edges ∧ StaticEq w w' ∧ (step w' d dl).error = some e := by
  intro edges
  induction edges with
  | nil =>
    intro w e h
    simp [runEdges] at h
  | cons p rest ih =>
    intro w e h
    rcases p with ⟨d, dl⟩
    rcases hs : step w d dl with ⟨w1, tr1, err⟩
    have h1 : StaticEq w w1 := by
      have := hstatic w d dl
      rwa [hs] at this
    cases err with
    | some e' =>
      simp [runEdges, hs] at h
      exact ⟨d, dl, w, by simp, staticEq_refl w, by rw [hs, h]⟩
    | none =>
      rcases hr : runEdges step w1 rest with ⟨w2, tr2, err2⟩
      simp [runEdges, hs, hr] at h
      obtain ⟨d', dl', w', hm, hse, herr⟩ := by
        apply ih w1 e
        rw [hr]
        simpa using h
      exact ⟨d', dl', w', by simp [hm], staticEq_trans h1 hse, herr⟩

theorem change_state_asyncRequired_reachable (rank : MachineId → Nat) :
    ∀ (fuel : Nat) (w : World) (mid : MachineId) (lbl : Label) (m' : MachineId),
      RankOk w rank → rank mid < fuel →
      (change_state fuel w mid lbl).error = some (.asyncRequired m') →
      ReachesAll w mid m' ∧ machineHasAsync w m' = true := by
  intro fuel
  induction fuel with
  | zero => intro w mid lbl m' _ h; omega
  | succ n ih =>
    intro w mid lbl m' hrk hlt
    simp only [change_state]
    split
    · rename_i e heq
      intro h
      simp only [Option.some.injEq] at h
      rw [check_change_state_error heq] at h
      simp at h
    · intro h
      simp at h
    · split
      · rename_i e heq
        intro h
        simp only [Option.some.injEq] at h
        rcases check_for_async_spec rank (n + 1) w mid hrk hlt with ⟨hok, _⟩ |
          ⟨m'', herr, hr, ha⟩
        · rw [hok] at heq
          simp at heq
        · rw [herr] at heq
          have he : Err.asyncRequired m'' = e := by
            simpa using heq
          rw [← he] at h
          simp only [Err.asyncRequired.injEq] at h
          subst h
          exact ⟨hr, ha⟩
      · split
        · intro h
          simp at h
        · split
          · intro h
            simp at h
          · split
            · rename_i w1 devs e heq
              intro h
              simp only [Option.some.injEq] at h
              subst h
              obtain ⟨d, dl, w', hmem, hse, herr⟩ :=
                runEdges_error_origin (change_state n)
                  (fun w d dl => change_state_static n w d dl)
                  (lookupWiring (w.machines mid) lbl) w (.asyncRequired m')
                  (by rw [heq])
              have hdm : d ∈ destsOf (w.machines mid) := fst_mem_destsOf hmem
              have hrk' : RankOk w' rank := rankOk_staticEq hse hrk
              have hdlt : rank d < n := by
                have := hrk mid d hdm
                omega
              obtain ⟨hr', ha'⟩ := ih w' d dl m' hrk' hdlt herr
              refine ⟨.step hdm (reachesAll_staticEq (staticEq_symm hse) hr'), ?_⟩
              rw [← machineHasAsync_staticEq hse m']
              exact ha'
            · intro h
              simp at h

/-- C3 (amended): the synchronous `change_state(new_label)` fails with
AsyncRequired iff some machine reachable from `self` along wiring edges
of ANY label (not just edges keyed by the entered labels: the pre-check
`check_for_async` iterates every key of every visited machine's wiring)
has an output with `require_async()` true; and when the pre-check fails
the call has no side effects whatsoever: unchanged world, empty trace
(no output call other than the pure `require_async()` probes). -/
theorem async_gatekeeping_all_edges :
    ∀ (w : World) (rank : MachineId → Nat) (n : Nat) (mid : MachineId) (lbl : Label),
      RankOk w rank → rank mid < n + 1 →
      lbl ∈ (w.machines mid).states →
      (w.machines mid).current_state ≠ some lbl →
      (((∃ m', (change_state (n + 1) w mid lbl).error = some (.asyncRequired m')) ↔
          (∃ m', ReachesAll w mid m' ∧ machineHasAsync w m' = true)) ∧
        (∀ e, check_for_async (n + 1) w mid = .error e →
          change_state (n + 1) w mid lbl = ⟨w, [], some e⟩)) := by
  intro w rank n mid lbl hrk hlt h1 h2
  constructor
  · constructor
    · rintro ⟨m', herr⟩
      exact ⟨m', change_state_asyncRequired_reachable rank (n + 1) w mid lbl m' hrk hlt herr⟩
    · rintro ⟨m', hr, ha⟩
      rcases check_for_async_spec rank (n + 1) w mid hrk hlt with ⟨_, hnfa⟩ |
        ⟨m'', herr, _, _⟩
      · exact absurd (hnfa m' hr) (by simp [ha])
      · refine ⟨m'', ?_⟩
        simp [change_state, check_change_state_true w mid lbl h1 h2, herr]
  · intro e herr
    simp [change_state, check_change_state_true w mid lbl h1 h2, herr]

theorem async_gatekeeping_all_edges_witness :
    (RankOk gateW gateRank ∧ gateRank 0 < 2 ∧ "a" ∈ (gateW.machines 0).states ∧
      (gateW.machines 0).current_state ≠ some "a") ∧
    (((∃ m', (change_state 2 gateW 0 "a").error = some (.asyncRequired m')) ↔
        (∃ m', ReachesAll gateW 0 m' ∧ machineHasAsync gateW m' = true)) ∧
      (∀ e, check_for_async 2 gateW 0 = .error e →
        change_state 2 gateW 0 "a" = ⟨gateW, [], some e⟩)) :=
  have hrk : RankOk gateW gateRank := by
    intro m d hd
    by_cases hm : m = 0
    · subst hm
      have : destsOf (gateW.machines 0) = [1] := by decide
      rw [this] at hd
      simp at hd
      simp [hd, gateRank]
    · have : destsOf (gateW.machines m) = [] := by
        simp [gateW, hm, destsOf, destsOfEntries]
      rw [this] at hd
      simp at hd
  ⟨⟨hrk, by decide, by decide, by decide⟩,
   async_gatekeeping_all_edges gateW gateRank 1 0 "a" hrk (by decide) (by decide) (by decide)⟩

/-- C3 counterexample: in `gateW`, no machine reachable from `(0, "a")`
along entered-label wiring edges has an async output (machine 0's only
edge hangs off label `"b"`), yet the synchronous `change_state` to
`"a"` fails with AsyncRequired raised at machine 1: `check_for_async`
walks wiring edges of every label, not just the entered ones. -/
theorem async_check_ignores_entered_label_cex :
    (¬ ∃ m', ReachesEntered gateW 0 "a" m' ∧ machineHasAsync gateW m' = true) ∧
    (change_state 2 gateW 0 "a").error = some (.asyncRequired 1) := by
  constructor
  · rintro ⟨m', hr, ha⟩
    cases hr with
    | refl => exact absurd ha (by decide)
    | step hd hr' =>
      have : lookupWiring (gateW.machines 0) "a" = [] := by decide
      rw [this] at hd
      simp at hd
  · decide

/-! ## Which machines' current state and events a call can touch -/

theorem runEdges_current_frame (step : World → MachineId → Label → Outcome)
    (hstatic : ∀ w d dl, StaticEq w (step w d dl).world)
    (hstep : ∀ w' d dl m, ¬ ReachesAll w' d m →
      ((step w' d dl).world.machines m).current_state = (w'.machines m).current_state) :
    ∀ (edges : List (MachineId × Label)) (w : World) (m : MachineId),
      (∀ p ∈ edges, ¬ ReachesAll w p.1 m) →
      ((runEdges step w edges).world.machines m).current_state =
        (w.machines m).current_state := by
  intro edges
  induction edges with
  | nil => intro w m _; simp [runEdges]
  | cons p rest ih =>
    intro w m hnr
    rcases p with ⟨d, dl⟩
    rcases hs : step w d dl with ⟨w1, tr1, err⟩
    have h1 : StaticEq w w1 := by
      have := hstatic w d dl
      rwa [hs] at this
    have hc1 : (w1.machines m).current_state = (w.machines m).current_state := by
      have := hstep w d dl m (hnr (d, dl) (by simp))
      rwa [hs] at this
    cases err with
    | some e => simpa [runEdges, hs] using hc1
    | none =>
      have hnr' : ∀ p ∈ rest, ¬ ReachesAll w1 p.1 m := by
        intro p hp hre
        exact hnr p (by simp [hp]) (reachesAll_staticEq (staticEq_symm h1) hre)
      rcases hr : runEdges step w1 rest with ⟨w2, tr2, err2⟩
      have h2 := ih w1 m hnr'
      rw [hr] at h2
      simpa [runEdges, hs, hr] using h2.trans hc1

theorem change_state_current_frame :
    ∀ (n : Nat) (w : World) (mid : MachineId) (lbl : Label) (m : MachineId),
      ¬ ReachesAll w mid m →
      ((change_state n w mid lbl).world.machines m).current_state =
        (w.machines m).current_state := by
  intro n
  induction n with
  | zero => intro w mid lbl m _; rfl
  | succ n ih =>
    intro w mid lbl m hnr
    have hmne : m ≠ mid := by
      intro h
      subst h
      exact hnr (.refl m)
    have hedges : ∀ p ∈ lookupWiring (w.machines mid) lbl, ¬ ReachesAll w p.1 m := by
      intro p hp hre
      exact hnr (.step (fst_mem_destsOf hp) hre)
    have hrunf := runEdges_current_frame (change_state n)
      (fun w d dl => change_state_static n w d dl)
      (fun w' d dl m hm => ih w' d dl m hm)
      (lookupWiring (w.machines mid) lbl) w m hedges
    simp only [change_state]
    split
    · rfl
    · rfl
    · split
      · rfl
      · split
        · rfl
        · split
          · rfl
          · split
            · rename_i w1 devs e heq
              rw [heq] at hrunf
              exact hrunf
            · rename_i w1 devs heq
              rw [heq] at hrunf
              show ((setCurrent w1 mid lbl).machines m).current_state = _
              simp only [setCurrent]
              rw [if_neg hmne]
              exact hrunf

theorem change_state_async_current_frame :
    ∀ (n : Nat) (w : World) (mid : MachineId) (lbl : Label) (m : MachineId),
      ¬ ReachesAll w mid m →
      ((change_state_async n w mid lbl).world.machines m).current_state =
        (w.machines m).current_state := by
  intro n
  induction n with
  | zero => intro w mid lbl m _; rfl
  | succ n ih =>
    intro w mid lbl m hnr
    have hmne : m ≠ mid := by
      intro h
      subst h
      exact hnr (.refl m)
    have hedges : ∀ p ∈ lookupWiring (w.machines mid) lbl, ¬ ReachesAll w p.1 m := by
      intro p hp hre
      exact hnr (.step (fst_mem_destsOf hp) hre)
    have hrunf := runEdges_current_frame (change_state_async n)
      (fun w d dl => change_state_async_static n w d dl)
      (fun w' d dl m hm => ih w' d dl m hm)
      (lookupWiring (w.machines mid) lbl) w m hedges
    simp only [change_state_async]
    split
    · rfl
    · rfl
    · split
      · rfl
      · split
        · rfl
        · split
          · rename_i w1 devs e heq
            rw [heq] at hrunf
            exact hrunf
          · rename_i w1 devs heq
            rw [heq] at hrunf
            show ((setCurrent w1 mid lbl).machines m).current_state = _
            simp only [setCurrent]
            rw [if_neg hmne]
            exact hrunf

theorem lockPhase_evs_machine (w : World) (mid : MachineId) (lbl : Label) :
    ∀ (os : List OutputId), ∀ ev ∈ (lockPhase w mid lbl os).evs, eventMachine ev = mid := by
  intro os
  induction os with
  | nil => simp [lockPhase]
  | cons o rest ih =>
    intro ev hev
    by_cases ho : (w.outputs o).acquireFails lbl = true
    · simp [lockPhase, ho] at hev
      simp [hev, eventMachine]
    · have ho' : (w.outputs o).acquireFails lbl = false := by simpa using ho
      simp [lockPhase, ho'] at hev
      rcases hev with rfl | hev'
      · simp [eventMachine]
      · exact ih ev hev'

theorem lockPhaseAsync_evs_machine (w : World) (mid : MachineId) (lbl : Label) :
    ∀ (os : List OutputId), ∀ ev ∈ (lockPhaseAsync w mid lbl os).evs, eventMachine ev = mid := by
  intro os
  induction os with
  | nil => simp [lockPhaseAsync]
  | cons o rest ih =>
    intro ev hev
    by_cases ho : (w.outputs o).acquireFails lbl = true
    · simp [lockPhaseAsync, ho] at hev
      simp [hev, eventMachine]
    · have ho' : (w.outputs o).acquireFails lbl = false := by simpa using ho
      by_cases ha : (w.outputs o).require_async = true <;>
        · simp [lockPhaseAsync, ho', ha] at hev
          rcases hev with rfl | hev'
          · simp [eventMachine]
          · exact ih ev hev'

theorem commitPhase_evs_machine (w : World) (mid : MachineId) :
    ∀ (os : List OutputId), ∀ ev ∈ (commitPhase w mid os).evs, eventMachine ev = mid := by
  intro os
  induction os with
  | nil => simp [commitPhase]
  | cons o rest ih =>
    intro ev hev
    by_cases ho : (w.outputs o).changeFails = true
    · simp [commitPhase, ho] at hev
      simp [hev, eventMachine]
    · have ho' : (w.outputs o).changeFails = false := by simpa using ho
      simp [commitPhase, ho'] at hev
      rcases hev with rfl | hev'
      · simp [eventMachine]
      · exact ih ev hev'

theorem runEdges_trace_tags (step : World → MachineId → Label → Outcome)
    (hstatic : ∀ w d dl, StaticEq w (step w d dl).world)
    (hstep : ∀ w' d dl ev, ev ∈ (step w' d dl).trace → ReachesAll w' d (eventMachine ev)) :
    ∀ (edges : List (MachineId × Label)) (w : World) (ev : Event),
      ev ∈ (runEdges step w edges).evs →
      ∃ d, (∃ dl, (d, dl) ∈ edges) ∧ ReachesAll w d (eventMachine ev) := by
  intro edges
  induction edges with
  | nil => intro w ev h; simp [runEdges] at h
  | cons p rest ih =>
    intro w ev h
    rcases p with ⟨d, dl⟩
    rcases hs : step w d dl with ⟨w1, tr1, err⟩
    have h1 : StaticEq w w1 := by
      have := hstatic w d dl
      rwa [hs] at this
    have htr1 : ev ∈ tr1 → ReachesAll w d (eventMachine ev) := by
      intro hm
      have := hstep w d dl ev
      rw [hs] at this
      exact this hm
    cases err with
    | some e =>
      simp [runEdges, hs] at h
      exact ⟨d, ⟨dl, by simp⟩, htr1 h⟩
    | none =>
      rcases hr : runEdges step w1 rest with ⟨w2, tr2, err2⟩
      simp [runEdges, hs, hr] at h
      rcases h with h | h
      · exact ⟨d, ⟨dl, by simp⟩, htr1 h⟩
      · obtain ⟨d', ⟨dl', hm⟩, hre⟩ := by
          apply ih w1 ev
          rw [hr]
          simpa using h
        exact ⟨d', ⟨dl', by simp [hm]⟩, reachesAll_staticEq (staticEq_symm h1) hre⟩

theorem releaseEvents_machine (mid : MachineId) (os : List OutputId) :
    ∀ ev ∈ releaseEvents mid os, eventMachine ev = mid := by
  intro ev hev
  simp [releaseEvents] at hev
  obtain ⟨o, _, rfl⟩ := hev
  rfl

theorem change_state_trace_tags :
    ∀ (n : Nat) (w : World) (mid : MachineId) (lbl : Label) (ev : Event),
      ev ∈ (change_state n w mid lbl).trace → ReachesAll w mid (eventMachine ev) := by
  intro n
  induction n with
  | zero => intro w mid lbl ev h; simp [change_state] at h
  | succ n ih =>
    intro w mid lbl ev
    have hdevs : ev ∈ (runEdges (change_state n) w (lookupWiring (w.machines mid) lbl)).evs →
        ReachesAll w mid (eventMachine ev) := by
      intro h
      obtain ⟨d, ⟨dl, hm⟩, hre⟩ := runEdges_trace_tags (change_state n)
        (fun w d dl => change_state_static n w d dl)
        (fun w' d dl ev hm => ih w' d dl ev hm)
        (lookupWiring (w.machines mid) lbl) w ev h
      exact .step (fst_mem_destsOf hm) hre
    simp only [change_state]
    split
    · intro h; simp at h
    · intro h; simp at h
    · split
      · intro h; simp at h
      · split
        · rename_i locked levs o heq
          intro h
          have hl : ∀ e ∈ levs, eventMachine e = mid := by
            have := lockPhase_evs_machine w mid lbl (w.machines mid).output_callbacks
            rw [heq] at this
            exact this
          simp only [Outcome.trace] at h
          rcases List.mem_append.mp h with h' | h'
          · rw [hl ev h']
            exact .refl mid
          · rw [releaseEvents_machine mid locked ev h']
            exact .refl mid
        · rename_i locked levs heq
          have hl : ∀ e ∈ levs, eventMachine e = mid := by
            have := lockPhase_evs_machine w mid lbl (w.machines mid).output_callbacks
            rw [heq] at this
            exact this
          split
          · rename_i cevs o heq2
            intro h
            have hc : ∀ e ∈ cevs, eventMachine e = mid := by
              have := commitPhase_evs_machine w mid (w.machines mid).output_callbacks
              rw [heq2] at this
              exact this
            simp only [Outcome.trace] at h
            rcases List.mem_append.mp h with h' | h'
            · rw [hl ev h']
              exact .refl mid
            · rw [hc ev h']
              exact .refl mid
          · rename_i cevs heq2
            have hc : ∀ e ∈ cevs, eventMachine e = mid := by
              have := commitPhase_evs_machine w mid (w.machines mid).output_callbacks
              rw [heq2] at this
              exact this
            split
            · rename_i w1 devs e heq3
              intro h
              simp only [Outcome.trace] at h
              rcases List.mem_append.mp h with h' | h'
              · rcases List.mem_append.mp h' with h'' | h''
                · rw [hl ev h'']
                  exact .refl mid
                · rw [hc ev h'']
                  exact .refl mid
              · apply hdevs
                rw [heq3]
                exact h'
            · rename_i w1 devs heq3
              intro h
              simp only [Outcome.trace] at h
              rcases List.mem_append.mp h with h' | h'
              · rcases List.mem_append.mp h' with h'' | h''
                · rcases List.mem_append.mp h'' with h3 | h3
                  · rw [hl ev h3]
                    exact .refl mid
                  · rw [hc ev h3]
                    exact .refl mid
                · apply hdevs
                  rw [heq3]
                  exact h''
              · rw [releaseEvents_machine mid (w.machines mid).output_callbacks ev h']
                exact .refl mid

theorem change_state_async_trace_tags :
    ∀ (n : Nat) (w : World) (mid : MachineId) (lbl : Label) (ev : Event),
      ev ∈ (change_state_async n w mid lbl).trace → ReachesAll w mid (eventMachine ev) := by
  intro n
  induction n with
  | zero => intro w mid lbl ev h; simp [change_state_async] at h
  | succ n ih =>
    intro w mid lbl ev
    have hdevs : ev ∈ (runEdges (change_state_async n) w
        (lookupWiring (w.machines mid) lbl)).evs → ReachesAll w mid (eventMachine ev) := by
      intro h
      obtain ⟨d, ⟨dl, hm⟩, hre⟩ := runEdges_trace_tags (change_state_async n)
        (fun w d dl => change_state_async_static n w d dl)
        (fun w' d dl ev hm => ih w' d dl ev hm)
        (lookupWiring (w.machines mid) lbl) w ev h
      exact .step (fst_mem_destsOf hm) hre
    simp only [change_state_async]
    split
    · intro h; simp at h
    · intro h; simp at h
    · split
      · rename_i ls la levs o heq
        intro h
        have hl : ∀ e ∈ levs, eventMachine e = mid := by
          have := lockPhaseAsync_evs_machine w mid lbl (w.machines mid).output_callbacks
          rw [heq] at this
          exact this
        simp only [Outcome.trace] at h
        rcases List.mem_append.mp h with h' | h'
        · rcases List.mem_append.mp h' with h'' | h''
          · rw [hl ev h'']
            exact .refl mid
          · rw [releaseEvents_machine mid ls ev h'']
            exact .refl mid
        · rw [releaseEvents_machine mid la ev h']
          exact .refl mid
      · rename_i ls la levs heq
        have hl : ∀ e ∈ levs, eventMachine e = mid := by
          have := lockPhaseAsync_evs_machine w mid lbl (w.machines mid).output_callbacks
          rw [heq] at this
          exact this
        split
        · rename_i cevs o heq2
          intro h
          have hc : ∀ e ∈ cevs, eventMachine e = mid := by
            have := commitPhase_evs_machine w mid (ls ++ la)
            rw [heq2] at this
            exact this
          simp only [Outcome.trace] at h
          rcases List.mem_append.mp h with h' | h'
          · rw [hl ev h']
            exact .refl mid
          · rw [hc ev h']
            exact .refl mid
        · rename_i cevs heq2
          have hc : ∀ e ∈ cevs, eventMachine e = mid := by
            have := commitPhase_evs_machine w mid (ls ++ la)
            rw [heq2] at this
            exact this
          split
          · rename_i w1 devs e heq3
            intro h
            simp only [Outcome.trace] at h
            rcases List.mem_append.mp h with h' | h'
            · rcases List.mem_append.mp h' with h'' | h''
              · rw [hl ev h'']
                exact .refl mid
              · rw [hc ev h'']
                exact .refl mid
            · apply hdevs
              rw [heq3]
              exact h'
          · rename_i w1 devs heq3
            intro h
            simp only [Outcome.trace] at h
            rcases List.mem_append.mp h with h' | h'
            · rcases List.mem_append.mp h' with h'' | h''
              · rcases List.mem_append.mp h'' with h3 | h3
                · rw [hl ev h3]
                  exact .refl mid
                · rw [hc ev h3]
                  exact .refl mid
              · apply hdevs
                rw [heq3]
                exact h''
            · rw [releaseEvents_machine mid (ls ++ la) ev h']
              exact .refl mid

/-- C10 (implicit): if every output acquired its lock and the call then
raises — from an output's `change()` or from a recursive downstream
transition — the exception propagates with the machine's `current_state`
not updated and NONE of the locked outputs ever receiving
`release_lock()`: the release loop sits after the propagation loop and
the raise skips it, so the locks stay held.  (The no-reach-back
hypothesis rules out the machine being re-entered by its own downstream
closure, which cannot complete anyway — see C2.) -/
theorem locks_held_on_commit_failure :
    (∀ (n : Nat) (w : World) (mid : MachineId) (lbl : Label) (e : Err),
      lbl ∈ (w.machines mid).states →
      (w.machines mid).current_state ≠ some lbl →
      check_for_async (n + 1) w mid = .ok () →
      (∀ o ∈ (w.machines mid).output_callbacks, (w.outputs o).acquireFails lbl = false) →
      (∀ p ∈ lookupWiring (w.machines mid) lbl, ¬ ReachesAll w p.1 mid) →
      (change_state (n + 1) w mid lbl).error = some e →
      ((change_state (n + 1) w mid lbl).world.machines mid).current_state =
        (w.machines mid).current_state ∧
      (∀ o, Event.release mid o ∉ (change_state (n + 1) w mid lbl).trace)) ∧
    (∀ (n : Nat) (w : World) (mid : MachineId) (lbl : Label) (e : Err),
      lbl ∈ (w.machines mid).states →
      (w.machines mid).current_state ≠ some lbl →
      (∀ o ∈ (w.machines mid).output_callbacks, (w.outputs o).acquireFails lbl = false) →
      (∀ p ∈ lookupWiring (w.machines mid) lbl, ¬ ReachesAll w p.1 mid) →
      (change_state_async (n + 1) w mid lbl).error = some e →
      ((change_state_async (n + 1) w mid lbl).world.machines mid).current_state =
        (w.machines mid).current_state ∧
      (∀ o, Event.release mid o ∉ (change_state_async (n + 1) w mid lbl).trace)) := by
  constructor
  · intro n w mid lbl e h1 h2 h3 hacq hnr herr
    by_cases hchg : ∃ o ∈ (w.machines mid).output_callbacks, (w.outputs o).changeFails = true
    · obtain ⟨pre, o₀, post, hsplit, hpre, ho⟩ := exists_first_true hchg
      rw [change_state_commitfail_eq n w mid lbl pre post o₀ h1 h2 h3 hacq hsplit hpre ho]
      refine ⟨rfl, fun o => ?_⟩
      simp [List.mem_append, List.mem_map]
    · have hchg' := all_false_of_not_exists hchg
      rcases hrun : runEdges (change_state n) w (lookupWiring (w.machines mid) lbl) with
        ⟨w1, devs, derr⟩
      cases derr with
      | none =>
        rw [change_state_prop_ok_eq n w mid lbl w1 devs h1 h2 h3 hacq hchg' hrun] at herr
        simp at herr
      | some e' =>
        rw [change_state_prop_err_eq n w mid lbl w1 devs e' h1 h2 h3 hacq hchg' hrun]
        constructor
        · have hcf := runEdges_current_frame (change_state n)
            (fun w d dl => change_state_static n w d dl)
            (fun w' d dl m hm => change_state_current_frame n w' d dl m hm)
            (lookupWiring (w.machines mid) lbl) w mid hnr
          rw [hrun] at hcf
          exact hcf
        · intro o hmem
          rcases List.mem_append.mp hmem with h' | h'
          · simp [List.mem_map] at h'
          · rcases List.mem_append.mp h' with h'' | h''
            · simp [List.mem_map] at h''
            · obtain ⟨d, ⟨dl, hm⟩, hre⟩ := runEdges_trace_tags (change_state n)
                (fun w d dl => change_state_static n w d dl)
                (fun w' d dl ev hm => change_state_trace_tags n w' d dl ev hm)
                (lookupWiring (w.machines mid) lbl) w (Event.release mid o)
                (by rw [hrun]; exact h'')
              exact hnr (d, dl) hm hre
  · intro n w mid lbl e h1 h2 hacq hnr herr
    by_cases hchg : ∃ o ∈ (w.machines mid).output_callbacks, (w.outputs o).changeFails = true
    · obtain ⟨o, hoMem, hoFail⟩ := hchg
      have hmem : o ∈ ((w.machines mid).output_callbacks).filter
            (fun x => !(w.outputs x).require_async) ++
          ((w.machines mid).output_callbacks).filter
            (fun x => (w.outputs x).require_async) := by
        rcases mem_filter_or (fun x => !(w.outputs x).require_async)
            (w.machines mid).output_callbacks o hoMem with h | h
        · exact List.mem_append.mpr (Or.inl h)
        · refine List.mem_append.mpr (Or.inr ?_)
          refine List.mem_filter.mpr ⟨(List.mem_filter.mp h).1, ?_⟩
          have := (List.mem_filter.mp h).2
          simpa using this
      obtain ⟨pre, o₀, post, hsplit, hpre, ho₀⟩ :=
        exists_first_true (p := fun x => (w.outputs x).changeFails) ⟨o, hmem, hoFail⟩
      rw [change_state_async_commitfail_eq n w mid lbl pre post o₀ h1 h2 hacq hsplit hpre ho₀]
      refine ⟨rfl, fun o => ?_⟩
      simp [List.mem_append, List.mem_map]
    · have hchg' := all_false_of_not_exists hchg
      rcases hrun : runEdges (change_state_async n) w (lookupWiring (w.machines mid) lbl) with
        ⟨w1, devs, derr⟩
      cases derr with
      | none =>
        rw [change_state_async_prop_ok_eq n w mid lbl w1 devs h1 h2 hacq hchg' hrun] at herr
        simp at herr
      | some e' =>
        rw [change_state_async_prop_err_eq n w mid lbl w1 devs e' h1 h2 hacq hchg' hrun]
        constructor
        · have hcf := runEdges_current_frame (change_state_async n)
            (fun w d dl => change_state_async_static n w d dl)
            (fun w' d dl m hm => change_state_async_current_frame n w' d dl m hm)
            (lookupWiring (w.machines mid) lbl) w mid hnr
          rw [hrun] at hcf
          exact hcf
        · intro o hmem
          rcases List.mem_append.mp hmem with h' | h'
          · simp [List.mem_map] at h'
          · rcases List.mem_append.mp h' with h'' | h''
            · simp [List.mem_map] at h''
            · obtain ⟨d, ⟨dl, hm⟩, hre⟩ := runEdges_trace_tags (change_state_async n)
                (fun w d dl => change_state_async_static n w d dl)
                (fun w' d dl ev hm => change_state_async_trace_tags n w' d dl ev hm)
                (lookupWiring (w.machines mid) lbl) w (Event.release mid o)
                (by rw [hrun]; exact h'')
              exact hnr (d, dl) hm hre

theorem locks_held_on_commit_failure_witness :
    ((change_state 1 commitW 0 "b").error = some (.commitFailed 0 1) ∧
      (change_state_async 1 commitW 0 "b").error = some (.commitFailed 0 1)) ∧
    (((change_state 1 commitW 0 "b").world.machines 0).current_state =
        (commitW.machines 0).current_state ∧
      (∀ o, Event.release 0 o ∉ (change_state 1 commitW 0 "b").trace)) ∧
    (((change_state_async 1 commitW 0 "b").world.machines 0).current_state =
        (commitW.machines 0).current_state ∧
      (∀ o, Event.release 0 o ∉ (change_state_async 1 commitW 0 "b").trace)) :=
  have hnr : ∀ p ∈ lookupWiring (commitW.machines 0) "b", ¬ ReachesAll commitW p.1 0 := by
    intro p hp
    have hempty : lookupWiring (commitW.machines 0) "b" = [] := rfl
    rw [hempty] at hp
    simp at hp
  ⟨⟨by decide, by decide⟩,
   locks_held_on_commit_failure.1 0 commitW 0 "b" (.commitFailed 0 1) (by decide) (by decide)
     (by rfl) (by decide) hnr (by decide),
   locks_held_on_commit_failure.2 0 commitW 0 "b" (.commitFailed 0 1) (by decide) (by decide)
     (by decide) hnr (by decide)⟩
